import Mathlib

/-!
# Verification of flask_restplus Swagger document generation

Shallow embedding of `src/flask_restplus/swagger.py`: the module that turns
route/resource/model metadata into a Swagger 2.0 specification document.

Python dicts are modelled as insertion-ordered association lists
`List (String × Val)`; Python exceptions as an error component threaded
alongside the mutable state (so state changes made before a raise survive,
as in Python); the `Swagger` instance state is its `_registered_models`
registry.

Helpers imported by `swagger.py` from modules that are not part of the
sources (`utils.merge`, `utils.not_none`, `model.Model.__schema__`) are
modelled from the spec and marked as such in their doc comments.
-/

namespace FlaskRestplus

/-- A Python value as it appears in the documents built by `swagger.py`:
`None`, booleans, strings, numbers, lists and (ordered) string-keyed dicts. -/
inductive Val where
  | vnone : Val
  | vbool : Bool → Val
  | vstr : String → Val
  | vnat : Nat → Val
  | vlist : List Val → Val
  | vdict : List (String × Val) → Val
deriving Repr

/-- An insertion-ordered Python dict with string keys and values in `α`. -/
abbrev Dict (α : Type) := List (String × α)

/-- An insertion-ordered Python dict with string keys. -/
abbrev AList := Dict Val

/-- Dict lookup: first binding wins (bindings are kept unique by `dinsert`). -/
def dlookup {α : Type} (d : Dict α) (k : String) : Option α :=
  match d with
  | [] => none
  | (k', v) :: rest => if k' = k then some v else dlookup rest k

/-- Dict lookup from the right: the value of the LAST binding of `k`. -/
def dlookupR {α : Type} (d : Dict α) (k : String) : Option α :=
  match d with
  | [] => none
  | (k', v) :: rest => (dlookupR rest k).orElse (fun _ => if k' = k then some v else none)

/-- Python dict assignment `d[k] = v`: update in place if the key exists
(keeping its position), else append at the end. -/
def dinsert {α : Type} (d : Dict α) (k : String) (v : α) : Dict α :=
  match d with
  | [] => [(k, v)]
  | (k', v') :: rest => if k' = k then (k, v) :: rest else (k', v') :: dinsert rest k v

/-- Membership `k in d` for a Python dict. -/
def dmem {α : Type} (d : Dict α) (k : String) : Bool :=
  (dlookup d k).isSome

theorem dlookup_dinsert {α : Type} (d : Dict α) (k k' : String) (v : α) :
    dlookup (dinsert d k v) k' = if k = k' then some v else dlookup d k' := by
  induction d with
  | nil => by_cases h : k = k' <;> simp [dinsert, dlookup, h]
  | cons hd tl ih =>
    obtain ⟨k₀, v₀⟩ := hd
    by_cases h0 : k₀ = k
    · subst h0
      by_cases h : k₀ = k' <;> simp [dinsert, dlookup, h]
    · by_cases h : k₀ = k'
      · subst h
        have hk : k ≠ k₀ := fun hh => h0 hh.symm
        simp [dinsert, h0, dlookup, hk]
      · simp [dinsert, h0, dlookup, h, ih]

/-- Modelled from the spec: `utils.merge` (not under `src/`) combines two
mappings, "later-declared sources overriding earlier on key conflicts". -/
def mergeD {α : Type} (a b : Dict α) : Dict α :=
  b.foldl (fun acc kv => dinsert acc kv.1 kv.2) a

theorem mergeD_nil {α : Type} (a : Dict α) : mergeD a [] = a := rfl

theorem mergeD_cons {α : Type} (a : Dict α) (k : String) (v : α) (b : Dict α) :
    mergeD a ((k, v) :: b) = mergeD (dinsert a k v) b := rfl

/-- Lookup in a merge: the second dict's (last) binding wins, falling back to
the first dict. -/
theorem dlookup_mergeD {α : Type} (a b : Dict α) (k : String) :
    dlookup (mergeD a b) k = (dlookupR b k).orElse (fun _ => dlookup a k) := by
  induction b generalizing a with
  | nil => simp [mergeD_nil, dlookupR, Option.orElse]
  | cons hd tl ih =>
    obtain ⟨k₀, v₀⟩ := hd
    rw [mergeD_cons, ih, dlookupR]
    cases h : dlookupR tl k with
    | some v => simp [Option.orElse]
    | none => by_cases hk : k₀ = k <;> simp [Option.orElse, dlookup_dinsert, hk]

/-! ## Errors

Python exceptions raised by `swagger.py`: `ValueError` and `errors.SpecsError`. -/

/-- An exception raised during document generation: `ValueError`,
`errors.SpecsError`, `KeyError`/`TypeError` from dict subscripts on bad
shapes, and the interpreter's `RecursionError` (modelled as running out of
fuel on a cyclic model graph). -/
inductive Err where
  | valueError : String → Err
  | specsError : String → Err
  | keyError : String → Err
  | typeError : String → Err
  | recursionError : Err
deriving Repr, DecidableEq

/-! ## Path parameter extraction (`extract_path_params`, lines 75-95)

`RE_PARAMS = <((?:[^:<>]+:)?[^<>]+)>` matches `<X>` where `X` is a nonempty
run of characters other than `<` and `>` (the optional converter prefix is
subsumed by `[^<>]+` as a language).  `findall` returns the leftmost
non-overlapping matches; `scanParams` below reproduces that scan. -/

/-- Scan the inside of a candidate `<...>` group: accumulate characters until
`>` (a match if the content is nonempty), failing on `<` (rescan from there),
on an empty content, or at the end of input.  Returns the matched content (if
any) and the position where scanning resumes. -/
def scanInner (acc : List Char) : List Char → Option (List Char) × List Char
  | [] => (none, [])
  | c :: rest =>
    if c = '>' then
      if acc.isEmpty then (none, rest) else (some acc.reverse, rest)
    else if c = '<' then (none, c :: rest)
    else scanInner (c :: acc) rest

theorem scanInner_snd_length (acc : List Char) (l : List Char) :
    (scanInner acc l).2.length ≤ l.length := by
  induction l generalizing acc with
  | nil => simp [scanInner]
  | cons c rest ih =>
    simp only [scanInner]
    by_cases h1 : c = '>'
    · simp [h1]; split <;> simp
    · by_cases h2 : c = '<'
      · simp [h1, h2]
      · simpa [h1, h2] using Nat.le_succ_of_le (ih (c :: acc))

/-- Computes `RE_PARAMS.findall(path)`: the contents of the leftmost non-overlapping
`<nonempty, no angle brackets>` groups of `path`. -/
def scanParams (cs : List Char) : List (List Char) :=
  match cs with
  | [] => []
  | c :: rest =>
    if c = '<' then
      match hs : scanInner [] rest with
      | (some content, after) => content :: scanParams after
      | (none, resume) => scanParams resume
    else scanParams rest
termination_by cs.length
decreasing_by
  · have h := scanInner_snd_length [] rest
    rw [hs] at h
    simpa using Nat.lt_succ_of_le h
  · have h := scanInner_snd_length [] rest
    rw [hs] at h
    simpa using Nat.lt_succ_of_le h
  · simp

/-- Splits one match: `descriptor, name = match.split(':') if ':' in match else (None, match)`:
no colon gives no converter; exactly one colon splits converter from name;
two or more make the tuple unpacking raise (`none`). -/
def splitColon (m : List Char) : Option (Option (List Char) × List Char) :=
  if m.count ':' = 0 then some (none, m)
  else if m.count ':' = 1 then
    some (some (m.takeWhile (fun c => c ≠ ':')), (m.dropWhile (fun c => c ≠ ':')).tail)
  else none

/-- Embeds `PATH_TYPES` (lines 21-26): membership and lookup in one step; `none`
means the descriptor is not a key of the dict. -/
def PATH_TYPES (d : Option String) : Option String :=
  match d with
  | some s =>
    if s = "int" then some "integer"
    else if s = "float" then some "number"
    else if s = "string" then some "string"
    else none
  | none => some "string"

/-- The body of the `extract_path_params` loop for one regex match:
split off the converter, build `{'name': …, 'in': 'path', 'required': True}`,
then assign `type` from `PATH_TYPES`, fall back to `'string'` for a converter
registered in `current_app.url_map.converters`, and raise otherwise.
Returns the parameter keyed by its name. -/
def processMatch (converters : List String) (m : List Char) :
    Except Err (String × AList) :=
  match splitColon m with
  | none => .error (.valueError "too many values to unpack")
  | some (descriptor, nameCs) =>
    let name := String.mk nameCs
    let dOpt := descriptor.map String.mk
    let base : AList :=
      [("name", .vstr name), ("in", .vstr "path"), ("required", .vbool true)]
    match PATH_TYPES dOpt with
    | some t => .ok (name, dinsert base "type" (.vstr t))
    | none =>
      match dOpt with
      | some d =>
        if d ∈ converters then .ok (name, dinsert base "type" (.vstr "string"))
        else .error (.valueError "Unsupported type converter")
      | none => .error (.valueError "Unsupported type converter")

/-- The `params[name] = param` accumulation loop of `extract_path_params`. -/
def extractPathParamsGo (converters : List String) :
    List (List Char) → AList → Except Err AList
  | [], params => .ok params
  | m :: rest, params =>
    match processMatch converters m with
    | .error e => .error e
    | .ok (name, param) =>
      extractPathParamsGo converters rest (dinsert params name (.vdict param))

/-- Embeds `extract_path_params(path)` (lines 75-95), with the set of registered
URL-map converters passed explicitly. -/
def extractPathParams (converters : List String) (path : String) :
    Except Err AList :=
  extractPathParamsGo converters (scanParams path.toList) []

/-- The expected path parameter for `name` with Swagger type `t`. -/
def pathParam (name t : String) : AList :=
  [("name", .vstr name), ("in", .vstr "path"), ("required", .vbool true),
   ("type", .vstr t)]

theorem processMatch_type_eq (converters : List String) (m : List Char)
    (d : Option (List Char)) (n : List Char) (t : String)
    (hsplit : splitColon m = some (d, n))
    (ht : PATH_TYPES (d.map String.mk) = some t) :
    processMatch converters m = .ok (String.mk n, pathParam (String.mk n) t) := by
  simp [processMatch, hsplit, ht, pathParam, dinsert]

theorem splitColon_noColon (m : List Char) (h : ':' ∉ m) :
    splitColon m = some (none, m) := by
  simp [splitColon, List.count_eq_zero.mpr h]

theorem takeWhile_colon (d n : List Char) (hd : ':' ∉ d) :
    (d ++ ':' :: n).takeWhile (fun c => c ≠ ':') = d := by
  induction d with
  | nil => simp [List.takeWhile_cons]
  | cons c cs ih =>
    have hc : c ≠ ':' := fun hc => hd (by simp [hc])
    have hcs : ':' ∉ cs := fun hm => hd (by simp [hm])
    simp only [List.cons_append, List.takeWhile_cons]
    simpa [hc] using ih hcs

theorem dropWhile_colon (d n : List Char) (hd : ':' ∉ d) :
    (d ++ ':' :: n).dropWhile (fun c => c ≠ ':') = ':' :: n := by
  induction d with
  | nil => simp [List.dropWhile_cons]
  | cons c cs ih =>
    have hc : c ≠ ':' := fun hc => hd (by simp [hc])
    have hcs : ':' ∉ cs := fun hm => hd (by simp [hm])
    simp only [List.cons_append, List.dropWhile_cons]
    simpa [hc] using ih hcs

theorem splitColon_pair (d n : List Char) (hd : ':' ∉ d) (hn : ':' ∉ n) :
    splitColon (d ++ ':' :: n) = some (some d, n) := by
  have hcount : (d ++ ':' :: n).count ':' = 1 := by
    simp [List.count_append, List.count_cons, List.count_eq_zero.mpr hd,
      List.count_eq_zero.mpr hn]
  have h0 : ¬ (d ++ ':' :: n).count ':' = 0 := by omega
  rw [splitColon, if_neg h0, if_pos hcount, takeWhile_colon d n hd,
    dropWhile_colon d n hd]
  rfl

/-! ## `parser_to_params` (lines 98-127) and `_handle_arg_type` (lines 130-141)

A `RequestParser` is consumed only through `parser.args`, a list of argument
objects read through the attributes `name, location, type, required, help,
default, action, choices` (the parser classes live outside the serializer
module). -/

/-- The shape of `arg.type` as discriminated by `_handle_arg_type`:
a `PY_TYPES` key (`int`/`str`/`bool`/`None`), an object with `__apidoc__`
(a model class), an object with `__schema__` (a field instance, carrying
that schema dict), or anything else. -/
inductive ArgType where
  | pyInt : ArgType
  | pyStr : ArgType
  | pyBool : ArgType
  | pyNone : ArgType
  | apidocModel : String → ArgType
  | schemaType : AList → ArgType
  | otherType : ArgType
deriving Repr

/-- One entry of `parser.args`.  `help`/`default`/`choices` model the Python
attributes, whose truthiness the code tests with plain `if`. -/
structure Arg where
  name : String
  location : String
  typ : ArgType
  required : Bool
  help : Option String
  default : Option Val
  action : String
  choices : List Val
deriving Repr

/-- Python truthiness of the values used in `swagger.py` conditions. -/
def truthy (v : Val) : Bool :=
  match v with
  | .vnone => false
  | .vbool b => b
  | .vstr s => s ≠ ""
  | .vnat n => n ≠ 0
  | .vlist l => !l.isEmpty
  | .vdict d => !d.isEmpty

/-- Embeds `LOCATIONS.get(location, 'query')` (lines 30-37). -/
def LOCATIONS (location : String) : String :=
  if location = "args" then "query"
  else if location = "form" then "formData"
  else if location = "headers" then "header"
  else if location = "json" then "body"
  else if location = "values" then "query"
  else if location = "files" then "formData"
  else "query"

/-- Embeds `_handle_arg_type(arg, param)` (lines 130-141). -/
def handleArgType (arg : Arg) (param : AList) : AList :=
  match arg.typ with
  | .pyInt => dinsert param "type" (.vstr "integer")
  | .pyStr => dinsert param "type" (.vstr "string")
  | .pyBool => dinsert param "type" (.vstr "boolean")
  | .pyNone => dinsert param "type" (.vstr "void")
  | .apidocModel n => dinsert (dinsert param "type" (.vstr n)) "in" (.vstr "body")
  | .schemaType schema => mergeD param schema
  | .otherType =>
    if arg.location = "files" then dinsert param "type" (.vstr "file")
    else dinsert param "type" (.vstr "string")

/-- The `if arg.choices:` step of the `parser_to_params` loop. -/
def applyChoices (arg : Arg) (param : AList) : AList :=
  if arg.choices.isEmpty then param
  else dinsert (dinsert param "enum" (.vlist arg.choices))
    "collectionFormat" (.vstr "multi")

/-- The parameter built for one argument up to the `action == 'append'`
check: the seed `{'in': …}` through `_handle_arg_type` and the
`required`/`help`/`default` steps. -/
def basicParam (arg : Arg) : AList :=
  let param : AList := [("in", .vstr (LOCATIONS arg.location))]
  let param := handleArgType arg param
  let param := if arg.required then dinsert param "required" (.vbool true) else param
  let param :=
    match arg.help with
    | some h => if h ≠ "" then dinsert param "description" (.vstr h) else param
    | none => param
  match arg.default with
  | some v => if truthy v then dinsert param "default" v else param
  | none => param

/-- The parameter derived from one argument: the body of the
`for arg in parser.args` loop up to `params[arg.name] = param`.
`param['items'] = {'type': param['type']}` raises `KeyError` when the
argument's schema did not provide a `type` (the later choices step only
runs when no exception was raised). -/
def paramForArg (arg : Arg) : Except Err AList :=
  if arg.action = "append" then
    match dlookup (basicParam arg) "type" with
    | none => .error (.keyError "type")
    | some t =>
      .ok (applyChoices arg
        (dinsert (dinsert (dinsert (basicParam arg) "items" (.vdict [("type", t)]))
          "type" (.vstr "array")) "collectionFormat" (.vstr "multi")))
  else .ok (applyChoices arg (basicParam arg))

/-- Does this `Val` equal the Python string `s`? -/
def isStr (v : Val) (s : String) : Bool :=
  match v with
  | .vstr t => t = s
  | _ => false

/-- The accumulation loop of `parser_to_params` followed by the
`'body' in locations and 'formData' in locations` check. -/
def parserToParamsGo : List Arg → AList → List Val → Except Err AList
  | [], params, locations =>
    if (locations.any (isStr · "body")) && (locations.any (isStr · "formData")) then
      .error (.specsError "Can't use formData and body at the same time")
    else .ok params
  | arg :: rest, params, locations =>
    if arg.location = "cookie" then parserToParamsGo rest params locations
    else
      match paramForArg arg with
      | .error e => .error e
      | .ok param =>
        parserToParamsGo rest (dinsert params arg.name (.vdict param))
          ((dlookup param "in").getD .vnone :: locations)

/-- Embeds `parser_to_params(parser)` (lines 98-127), taking `parser.args`. -/
def parserToParams (args : List Arg) : Except Err AList :=
  parserToParamsGo args [] []

/-! ## Models and the registry (`register_model`, `register_field`,
`serialize_schema`, `serialize_definitions`, lines 457-510)

`api.models` maps a model name to either a `Model` instance (with
`__parent__` and field values) or any other specs object.  References are
normalised to names (`model.name if isinstance(model, Model) else model`),
so a reference is modelled by the referenced name.  `register_field` walks
`Polymorph` mappings, `Nested` targets and `List` containers.

State is threaded Python-style: a raised exception leaves the registry
mutations made before it in place, so every function returns the registry
together with an optional exception. -/

/-- A flask-restplus field value, as discriminated by `register_field`. -/
inductive MField where
  | polymorph : List (String × String) → MField
  | nested : String → MField
  | flist : MField → MField
  | raw : MField
deriving Repr

/-- An entry of `api.models`: a `Model` (parent reference and field values)
or a plain (non-`Model`) specs object. -/
inductive ModelSpec where
  | mdl : Option String → List MField → ModelSpec
  | plain : Val → ModelSpec
deriving Repr

/-- The per-instance registry `self._registered_models`. -/
abbrev RegState := Dict ModelSpec

mutual

/-- Embeds `register_model(model)` (lines 490-501): look the name up in
`api.models` (raising `ValueError` when absent), store the specs in the
registry, and recurse into the parent and the fields of a `Model`.
`fuel` bounds the recursion depth (Python relies on the interpreter stack;
a cyclic model graph exhausts it). -/
def registerModel (models : Dict ModelSpec) :
    Nat → RegState → String → RegState × Option Err
  | 0, st, _ => (st, some .recursionError)
  | fuel + 1, st, name =>
    match dlookup models name with
    | none => (st, some (.valueError ("Model " ++ name ++ " not registered")))
    | some specs =>
      let st := dinsert st name specs
      match specs with
      | .plain _ => (st, none)
      | .mdl parent flds =>
        match
          (match parent with
           | some p => registerModel models fuel st p
           | none => (st, none)) with
        | (st, some e) => (st, some e)
        | (st, none) => registerFields models fuel st flds

/-- The `for field in itervalues(specs): self.register_field(field)` loop. -/
def registerFields (models : Dict ModelSpec) :
    Nat → RegState → List MField → RegState × Option Err
  | _, st, [] => (st, none)
  | fuel, st, f :: rest =>
    match registerField models fuel st f with
    | (st, some e) => (st, some e)
    | (st, none) => registerFields models fuel st rest

/-- Embeds `register_field(field)` (lines 503-510). -/
def registerField (models : Dict ModelSpec) :
    Nat → RegState → MField → RegState × Option Err
  | fuel, st, .polymorph mapping => registerPolymorph models fuel st mapping
  | fuel, st, .nested n => registerModel models fuel st n
  | fuel, st, .flist f => registerField models fuel st f
  | _, st, .raw => (st, none)

/-- The `for model in itervalues(field.mapping): self.register_model(model)`
loop of the `Polymorph` case. -/
def registerPolymorph (models : Dict ModelSpec) :
    Nat → RegState → List (String × String) → RegState × Option Err
  | _, st, [] => (st, none)
  | fuel, st, (_, n) :: rest =>
    match registerModel models fuel st n with
    | (st, some e) => (st, some e)
    | (st, none) => registerPolymorph models fuel st rest

end

/-- Embeds `ref(model)` (lines 57-60). -/
def refVal (name : String) : Val :=
  .vdict [("$ref", .vstr ("#/definitions/" ++ name))]

/-- The input of `serialize_schema`, as discriminated by its `isinstance`
chain: a list/tuple (only the first element is used), a `Model` instance or
model name string (both normalised to the name), a `fields.Raw` subclass or
instance (carrying its `__schema__`), a `PY_TYPES` key, or anything else. -/
inductive SchemaInput where
  | listOf : SchemaInput → SchemaInput
  | modelRef : String → SchemaInput
  | rawField : AList → SchemaInput
  | pyInt : SchemaInput
  | pyStr : SchemaInput
  | pyBool : SchemaInput
  | pyNone : SchemaInput
  | other : SchemaInput
deriving Repr

/-- Embeds `serialize_schema(model)` (lines 463-488). -/
def serializeSchema (models : Dict ModelSpec) (fuel : Nat) (st : RegState) :
    SchemaInput → RegState × Except Err Val
  | .listOf m =>
    match serializeSchema models fuel st m with
    | (st, .ok items) =>
      (st, .ok (.vdict [("type", .vstr "array"), ("items", items)]))
    | (st, .error e) => (st, .error e)
  | .modelRef name =>
    match registerModel models fuel st name with
    | (st, none) => (st, .ok (refVal name))
    | (st, some e) => (st, .error e)
  | .rawField schema => (st, .ok (.vdict schema))
  | .pyInt => (st, .ok (.vdict [("type", .vstr "integer")]))
  | .pyStr => (st, .ok (.vdict [("type", .vstr "string")]))
  | .pyBool => (st, .ok (.vdict [("type", .vstr "boolean")]))
  | .pyNone => (st, .ok (.vdict [("type", .vstr "void")]))
  | .other =>
    (st, .error (.valueError "Model not registered"))

/-- Embeds `serialize_definitions()` (lines 457-461); `Model.__schema__` lives in
`model.py`, outside the serializer sources, so the schema rendering is an
explicit parameter. -/
def serializeDefinitions (schemaOf : ModelSpec → Val) (st : RegState) :
    Dict Val :=
  st.map (fun nm => (nm.1, schemaOf nm.2))

/-! ## Error characterization of the registration walk (for C3) -/

/-- The only exceptions the registration walk can produce: the interpreter
giving out on an unbounded recursion, or `ValueError('Model … not
registered')` for a name that is missing from `api.models`. -/
def badErr (models : Dict ModelSpec) (e : Err) : Prop :=
  e = .recursionError ∨
    ∃ m, e = .valueError ("Model " ++ m ++ " not registered") ∧
      dlookup models m = none

theorem registerPolymorph_err (models : Dict ModelSpec) (fuel : Nat)
    (hM : ∀ st n e, (registerModel models fuel st n).2 = some e → badErr models e) :
    ∀ mp st e, (registerPolymorph models fuel st mp).2 = some e → badErr models e := by
  intro mp
  induction mp with
  | nil => intro st e h; simp [registerPolymorph] at h
  | cons hd rest ih =>
    intro st e h
    obtain ⟨s, n⟩ := hd
    simp only [registerPolymorph] at h
    rcases hm : registerModel models fuel st n with ⟨st', err⟩
    rw [hm] at h
    cases err with
    | some e' => simp at h; exact h ▸ hM st n e' (by rw [hm])
    | none => exact ih st' e h

theorem registerField_err (models : Dict ModelSpec) (fuel : Nat)
    (hM : ∀ st n e, (registerModel models fuel st n).2 = some e → badErr models e) :
    ∀ f st e, (registerField models fuel st f).2 = some e → badErr models e := by
  intro f
  induction f with
  | polymorph mp =>
    intro st e h
    simp only [registerField] at h
    exact registerPolymorph_err models fuel hM mp st e h
  | nested n =>
    intro st e h
    simp only [registerField] at h
    exact hM st n e h
  | flist f ih =>
    intro st e h
    simp only [registerField] at h
    exact ih st e h
  | raw => intro st e h; simp [registerField] at h

theorem registerFields_err (models : Dict ModelSpec) (fuel : Nat)
    (hM : ∀ st n e, (registerModel models fuel st n).2 = some e → badErr models e) :
    ∀ fs st e, (registerFields models fuel st fs).2 = some e → badErr models e := by
  intro fs
  induction fs with
  | nil => intro st e h; simp [registerFields] at h
  | cons f rest ih =>
    intro st e h
    simp only [registerFields] at h
    rcases hf : registerField models fuel st f with ⟨st', err⟩
    rw [hf] at h
    cases err with
    | some e' =>
      simp at h
      exact h ▸ registerField_err models fuel hM f st e' (by rw [hf])
    | none => exact ih st' e h

theorem registerModel_err (models : Dict ModelSpec) :
    ∀ fuel st n e, (registerModel models fuel st n).2 = some e →
      badErr models e := by
  intro fuel
  induction fuel with
  | zero =>
    intro st n e h
    simp [registerModel] at h
    exact .inl h.symm
  | succ fuel ih =>
    intro st n e h
    cases hl : dlookup models n with
    | none =>
      simp only [registerModel, hl, Option.some.injEq] at h
      exact .inr ⟨n, h.symm, hl⟩
    | some specs =>
      cases specs with
      | plain v => simp [registerModel, hl] at h
      | mdl parent flds =>
        cases parent with
        | none =>
          simp only [registerModel, hl] at h
          exact registerFields_err models fuel ih flds _ e h
        | some p =>
          simp only [registerModel, hl] at h
          rcases hp :
            registerModel models fuel (dinsert st n (.mdl (some p) flds)) p
            with ⟨st', err⟩
          rw [hp] at h
          cases err with
          | some e' => simp at h; exact h ▸ ih _ p e' (by rw [hp])
          | none => exact registerFields_err models fuel ih flds st' e h

/-! ## Registry invariant (for C9) -/

/-- Every registry entry is also an entry of `api.models`, bound to the same
specs object. -/
def RegInv (models : Dict ModelSpec) (st : RegState) : Prop :=
  ∀ k v, dlookup st k = some v → dlookup models k = some v

theorem regInv_empty (models : Dict ModelSpec) : RegInv models [] := by
  intro k v h
  simp [dlookup] at h

theorem regInv_dinsert (models : Dict ModelSpec) (st : RegState)
    (name : String) (specs : ModelSpec) (hst : RegInv models st)
    (hm : dlookup models name = some specs) :
    RegInv models (dinsert st name specs) := by
  intro k v h
  rw [dlookup_dinsert] at h
  by_cases hk : name = k
  · subst hk
    simp at h
    exact h ▸ hm
  · rw [if_neg hk] at h
    exact hst k v h

theorem registerPolymorph_inv (models : Dict ModelSpec) (fuel : Nat)
    (hM : ∀ st n, RegInv models st → RegInv models (registerModel models fuel st n).1) :
    ∀ mp st, RegInv models st →
      RegInv models (registerPolymorph models fuel st mp).1 := by
  intro mp
  induction mp with
  | nil => intro st hst; simpa [registerPolymorph] using hst
  | cons hd rest ih =>
    intro st hst
    obtain ⟨s, n⟩ := hd
    simp only [registerPolymorph]
    rcases hm : registerModel models fuel st n with ⟨st', err⟩
    have h1 : RegInv models st' := by
      have := hM st n hst
      rw [hm] at this
      exact this
    cases err with
    | some e' => exact h1
    | none => exact ih st' h1

theorem registerField_inv (models : Dict ModelSpec) (fuel : Nat)
    (hM : ∀ st n, RegInv models st → RegInv models (registerModel models fuel st n).1) :
    ∀ f st, RegInv models st →
      RegInv models (registerField models fuel st f).1 := by
  intro f
  induction f with
  | polymorph mp =>
    intro st hst
    simp only [registerField]
    exact registerPolymorph_inv models fuel hM mp st hst
  | nested n =>
    intro st hst
    simp only [registerField]
    exact hM st n hst
  | flist f ih =>
    intro st hst
    simp only [registerField]
    exact ih st hst
  | raw => intro st hst; simpa [registerField] using hst

theorem registerFields_inv (models : Dict ModelSpec) (fuel : Nat)
    (hM : ∀ st n, RegInv models st → RegInv models (registerModel models fuel st n).1) :
    ∀ fs st, RegInv models st →
      RegInv models (registerFields models fuel st fs).1 := by
  intro fs
  induction fs with
  | nil => intro st hst; simpa [registerFields] using hst
  | cons f rest ih =>
    intro st hst
    simp only [registerFields]
    rcases hf : registerField models fuel st f with ⟨st', err⟩
    have h1 : RegInv models st' := by
      have := registerField_inv models fuel hM f st hst
      rw [hf] at this
      exact this
    cases err with
    | some e' => exact h1
    | none => exact ih st' h1

theorem registerModel_inv (models : Dict ModelSpec) :
    ∀ fuel st n, RegInv models st →
      RegInv models (registerModel models fuel st n).1 := by
  intro fuel
  induction fuel with
  | zero => intro st n hst; simpa [registerModel] using hst
  | succ fuel ih =>
    intro st n hst
    cases hl : dlookup models n with
    | none => simpa [registerModel, hl] using hst
    | some specs =>
      have hins : RegInv models (dinsert st n specs) :=
        regInv_dinsert models st n specs hst hl
      cases specs with
      | plain v => simpa [registerModel, hl] using hins
      | mdl parent flds =>
        cases parent with
        | none =>
          simp only [registerModel, hl]
          exact registerFields_inv models fuel ih flds _ hins
        | some p =>
          simp only [registerModel, hl]
          rcases hp :
            registerModel models fuel (dinsert st n (.mdl (some p) flds)) p
            with ⟨st', err⟩
          have h1 : RegInv models st' := by
            have := ih (dinsert st n (.mdl (some p) flds)) p hins
            rw [hp] at this
            exact this
          cases err with
          | some e' => exact h1
          | none => exact registerFields_inv models fuel ih flds st' h1

theorem serializeSchema_inv (models : Dict ModelSpec) (fuel : Nat) :
    ∀ input st, RegInv models st →
      RegInv models (serializeSchema models fuel st input).1 := by
  intro input
  induction input with
  | listOf m ih =>
    intro st hst
    simp only [serializeSchema]
    rcases hm : serializeSchema models fuel st m with ⟨st', r⟩
    have h1 : RegInv models st' := by
      have := ih st hst
      rw [hm] at this
      exact this
    cases r with
    | ok v => exact h1
    | error e => exact h1
  | modelRef name =>
    intro st hst
    simp only [serializeSchema]
    rcases hm : registerModel models fuel st name with ⟨st', err⟩
    have h1 : RegInv models st' := by
      have := registerModel_inv models fuel st name hst
      rw [hm] at this
      exact this
    cases err with
    | some e => exact h1
    | none => exact h1
  | rawField schema => intro st hst; simpa [serializeSchema] using hst
  | pyInt => intro st hst; simpa [serializeSchema] using hst
  | pyStr => intro st hst; simpa [serializeSchema] using hst
  | pyBool => intro st hst; simpa [serializeSchema] using hst
  | pyNone => intro st hst; simpa [serializeSchema] using hst
  | other => intro st hst; simpa [serializeSchema] using hst

/-! ## Reachability in the model reference graph (for C8)

`register_model` recurses through the parent reference and through the
model names referenced by the fields (`Nested` targets, `Polymorph` mapping
values, `List` containers), all resolved via `api.models`. -/

/-- The model names referenced by one field value. -/
def fieldRefs : MField → List String
  | .polymorph mp => mp.map Prod.snd
  | .nested n => [n]
  | .flist f => fieldRefs f
  | .raw => []

/-- The model names referenced by a list of field values. -/
def fieldsRefs (fs : List MField) : List String :=
  fs.foldr (fun f acc => fieldRefs f ++ acc) []

/-- The model names directly referenced by the model registered under `n`:
its parent and its fields' targets (nothing for a plain entry or an
unregistered name). -/
def refs (models : Dict ModelSpec) (n : String) : List String :=
  match dlookup models n with
  | some (.mdl parent flds) => parent.toList ++ fieldsRefs flds
  | _ => []

/-- Reachability: `m` is in the reference graph reachable from `n`. -/
inductive Reaches (models : Dict ModelSpec) : String → String → Prop where
  | refl (n : String) : Reaches models n n
  | step {n r k : String} :
      r ∈ refs models n → Reaches models r k → Reaches models n k

/-- Some name of `rs` reaches `k`. -/
def ReachesAny (models : Dict ModelSpec) (rs : List String) (k : String) : Prop :=
  ∃ r ∈ rs, Reaches models r k

theorem reaches_iff (models : Dict ModelSpec) (n k : String) :
    Reaches models n k ↔ k = n ∨ ReachesAny models (refs models n) k := by
  constructor
  · intro h
    cases h with
    | refl => exact .inl rfl
    | step hr hk => exact .inr ⟨_, hr, hk⟩
  · intro h
    rcases h with rfl | ⟨r, hr, hk⟩
    · exact .refl k
    · exact .step hr hk

theorem reachesAny_nil (models : Dict ModelSpec) (k : String) :
    ¬ ReachesAny models [] k := by
  rintro ⟨r, hr, _⟩
  simp at hr

theorem reachesAny_cons (models : Dict ModelSpec) (r : String)
    (rs : List String) (k : String) :
    ReachesAny models (r :: rs) k ↔ Reaches models r k ∨ ReachesAny models rs k := by
  constructor
  · rintro ⟨r', hr', hk⟩
    rcases List.mem_cons.mp hr' with rfl | h
    · exact .inl hk
    · exact .inr ⟨r', h, hk⟩
  · rintro (h | ⟨r', hr', hk⟩)
    · exact ⟨r, List.mem_cons_self r rs, h⟩
    · exact ⟨r', List.mem_cons_of_mem r hr', hk⟩

theorem reachesAny_append (models : Dict ModelSpec) (rs₁ rs₂ : List String)
    (k : String) :
    ReachesAny models (rs₁ ++ rs₂) k ↔
      ReachesAny models rs₁ k ∨ ReachesAny models rs₂ k := by
  constructor
  · rintro ⟨r, hr, hk⟩
    rcases List.mem_append.mp hr with h | h
    · exact .inl ⟨r, h, hk⟩
    · exact .inr ⟨r, h, hk⟩
  · rintro (⟨r, hr, hk⟩ | ⟨r, hr, hk⟩)
    · exact ⟨r, List.mem_append.mpr (.inl hr), hk⟩
    · exact ⟨r, List.mem_append.mpr (.inr hr), hk⟩

theorem dmem_dinsert {α : Type} (d : Dict α) (k k' : String) (v : α) :
    dmem (dinsert d k v) k' = true ↔ k = k' ∨ dmem d k' = true := by
  unfold dmem
  rw [dlookup_dinsert]
  by_cases h : k = k' <;> simp [h]

theorem fieldsRefs_cons (f : MField) (fs : List MField) :
    fieldsRefs (f :: fs) = fieldRefs f ++ fieldsRefs fs := rfl

/-- The success-and-exactness specification of `register_model` at a given
fuel: on a registered, acyclic (rank-decreasing) reference graph the walk
raises nothing and the registry gains exactly the reachable names. -/
def RegSpec (models : Dict ModelSpec) (rank : String → Nat) (fuel : Nat) : Prop :=
  ∀ st n, (∀ m, Reaches models n m → dmem models m = true) → rank n < fuel →
    (registerModel models fuel st n).2 = none ∧
    (∀ k, dmem (registerModel models fuel st n).1 k = true ↔
      dmem st k = true ∨ Reaches models n k)

theorem registerPolymorph_reach (models : Dict ModelSpec) (rank : String → Nat)
    (fuel : Nat) (hM : RegSpec models rank fuel) :
    ∀ mp st,
      (∀ m, ReachesAny models (mp.map Prod.snd) m → dmem models m = true) →
      (∀ r ∈ mp.map Prod.snd, rank r < fuel) →
      (registerPolymorph models fuel st mp).2 = none ∧
      (∀ k, dmem (registerPolymorph models fuel st mp).1 k = true ↔
        dmem st k = true ∨ ReachesAny models (mp.map Prod.snd) k) := by
  intro mp
  induction mp with
  | nil =>
    intro st _ _
    have heq : registerPolymorph models fuel st [] = (st, none) := by
      simp only [registerPolymorph]
    rw [heq]
    refine ⟨rfl, fun k => ?_⟩
    have := reachesAny_nil models k
    simp only [List.map_nil]
    tauto
  | cons hd rest ih =>
    intro st hreg hrank
    obtain ⟨s, n⟩ := hd
    have hmap : ((s, n) :: rest).map Prod.snd = n :: rest.map Prod.snd := rfl
    rw [hmap] at hreg hrank ⊢
    have hregn : ∀ m, Reaches models n m → dmem models m = true := fun m hm =>
      hreg m ((reachesAny_cons models n _ m).mpr (.inl hm))
    have hrankn : rank n < fuel := hrank n (List.mem_cons_self _ _)
    rcases hM st n hregn hrankn with ⟨hsucc, hiff⟩
    rcases hm : registerModel models fuel st n with ⟨st1, err⟩
    rw [hm] at hsucc hiff
    cases err with
    | some e => simp at hsucc
    | none =>
      have hreg' : ∀ m, ReachesAny models (rest.map Prod.snd) m →
          dmem models m = true := fun m hm' =>
        hreg m ((reachesAny_cons models n _ m).mpr (.inr hm'))
      have hrank' : ∀ r ∈ rest.map Prod.snd, rank r < fuel :=
        fun r hr => hrank r (List.mem_cons_of_mem _ hr)
      rcases ih st1 hreg' hrank' with ⟨hsucc2, hiff2⟩
      have hstep : registerPolymorph models fuel st ((s, n) :: rest) =
          registerPolymorph models fuel st1 rest := by
        simp only [registerPolymorph, hm]
      rw [hstep]
      refine ⟨hsucc2, fun k => ?_⟩
      rw [hiff2 k, hiff k, reachesAny_cons]
      tauto

theorem registerField_reach (models : Dict ModelSpec) (rank : String → Nat)
    (fuel : Nat) (hM : RegSpec models rank fuel) :
    ∀ f st,
      (∀ m, ReachesAny models (fieldRefs f) m → dmem models m = true) →
      (∀ r ∈ fieldRefs f, rank r < fuel) →
      (registerField models fuel st f).2 = none ∧
      (∀ k, dmem (registerField models fuel st f).1 k = true ↔
        dmem st k = true ∨ ReachesAny models (fieldRefs f) k) := by
  intro f
  induction f with
  | polymorph mp =>
    intro st hreg hrank
    have hstep : registerField models fuel st (.polymorph mp) =
        registerPolymorph models fuel st mp := by
      simp only [registerField]
    rw [hstep]
    exact registerPolymorph_reach models rank fuel hM mp st hreg hrank
  | nested n =>
    intro st hreg hrank
    have hstep : registerField models fuel st (.nested n) =
        registerModel models fuel st n := by
      simp only [registerField]
    rw [hstep]
    have hregn : ∀ m, Reaches models n m → dmem models m = true := fun m hm =>
      hreg m ⟨n, by simp [fieldRefs], hm⟩
    have hrankn : rank n < fuel := hrank n (by simp [fieldRefs])
    rcases hM st n hregn hrankn with ⟨hsucc, hiff⟩
    refine ⟨hsucc, fun k => ?_⟩
    rw [hiff k]
    have : ReachesAny models (fieldRefs (.nested n)) k ↔ Reaches models n k := by
      constructor
      · rintro ⟨r, hr, hk⟩
        simp [fieldRefs] at hr
        exact hr ▸ hk
      · intro hk
        exact ⟨n, by simp [fieldRefs], hk⟩
    tauto
  | flist f ih =>
    intro st hreg hrank
    have hstep : registerField models fuel st (.flist f) =
        registerField models fuel st f := by
      simp only [registerField]
    rw [hstep]
    exact ih st hreg hrank
  | raw =>
    intro st _ _
    have heq : registerField models fuel st .raw = (st, none) := by
      simp only [registerField]
    rw [heq]
    refine ⟨rfl, fun k => ?_⟩
    have := reachesAny_nil models k
    simp only [fieldRefs]
    tauto

theorem registerFields_reach (models : Dict ModelSpec) (rank : String → Nat)
    (fuel : Nat) (hM : RegSpec models rank fuel) :
    ∀ fs st,
      (∀ m, ReachesAny models (fieldsRefs fs) m → dmem models m = true) →
      (∀ r ∈ fieldsRefs fs, rank r < fuel) →
      (registerFields models fuel st fs).2 = none ∧
      (∀ k, dmem (registerFields models fuel st fs).1 k = true ↔
        dmem st k = true ∨ ReachesAny models (fieldsRefs fs) k) := by
  intro fs
  induction fs with
  | nil =>
    intro st _ _
    have heq : registerFields models fuel st [] = (st, none) := by
      simp only [registerFields]
    rw [heq]
    refine ⟨rfl, fun k => ?_⟩
    have := reachesAny_nil models k
    simp only [fieldsRefs, List.foldr_nil]
    tauto
  | cons f rest ih =>
    intro st hreg hrank
    rw [fieldsRefs_cons] at hreg hrank ⊢
    have hregf : ∀ m, ReachesAny models (fieldRefs f) m → dmem models m = true :=
      fun m hm => hreg m ((reachesAny_append models _ _ m).mpr (.inl hm))
    have hrankf : ∀ r ∈ fieldRefs f, rank r < fuel :=
      fun r hr => hrank r (List.mem_append.mpr (.inl hr))
    rcases registerField_reach models rank fuel hM f st hregf hrankf with ⟨hsucc, hiff⟩
    rcases hf : registerField models fuel st f with ⟨st1, err⟩
    rw [hf] at hsucc hiff
    cases err with
    | some e => simp at hsucc
    | none =>
      have hreg' : ∀ m, ReachesAny models (fieldsRefs rest) m →
          dmem models m = true := fun m hm =>
        hreg m ((reachesAny_append models _ _ m).mpr (.inr hm))
      have hrank' : ∀ r ∈ fieldsRefs rest, rank r < fuel :=
        fun r hr => hrank r (List.mem_append.mpr (.inr hr))
      rcases ih st1 hreg' hrank' with ⟨hsucc2, hiff2⟩
      have hstep : registerFields models fuel st (f :: rest) =
          registerFields models fuel st1 rest := by
        simp only [registerFields, hf]
      rw [hstep]
      refine ⟨hsucc2, fun k => ?_⟩
      rw [hiff2 k, hiff k, reachesAny_append]
      tauto

theorem registerModel_reach (models : Dict ModelSpec) (rank : String → Nat)
    (hedge : ∀ a b, b ∈ refs models a → rank b < rank a) :
    ∀ fuel, RegSpec models rank fuel := by
  intro fuel
  induction fuel with
  | zero => intro st n _ hrank; exact absurd hrank (Nat.not_lt_zero _)
  | succ fuel ih =>
    intro st n hreg hrank
    have hn : dmem models n = true := hreg n (.refl n)
    obtain ⟨specs, hl⟩ : ∃ s, dlookup models n = some s := by
      unfold dmem at hn
      cases h : dlookup models n with
      | none => rw [h] at hn; simp at hn
      | some s => exact ⟨s, rfl⟩
    have hrankle : rank n ≤ fuel := Nat.lt_succ_iff.mp hrank
    have hsub : ∀ r ∈ refs models n, rank r < fuel := fun r hr =>
      Nat.lt_of_lt_of_le (hedge n r hr) hrankle
    have hregsub : ∀ r ∈ refs models n, ∀ m, Reaches models r m →
        dmem models m = true := fun r hr m hm => hreg m (.step hr hm)
    cases specs with
    | plain v =>
      have heq : registerModel models (fuel + 1) st n =
          (dinsert st n (.plain v), none) := by
        simp only [registerModel, hl]
      rw [heq]
      refine ⟨rfl, fun k => ?_⟩
      have hrefs : refs models n = [] := by simp [refs, hl]
      rw [dmem_dinsert, reaches_iff, hrefs]
      have := reachesAny_nil models k
      have hnk : n = k ↔ k = n := eq_comm
      tauto
    | mdl parent flds =>
      cases parent with
      | none =>
        have hrefs : refs models n = fieldsRefs flds := by
          simp [refs, hl]
        have hregflds : ∀ m, ReachesAny models (fieldsRefs flds) m →
            dmem models m = true := by
          rintro m ⟨r, hr, hm⟩
          exact hregsub r (by rw [hrefs]; exact hr) m hm
        have hrankflds : ∀ r ∈ fieldsRefs flds, rank r < fuel := fun r hr =>
          hsub r (by rw [hrefs]; exact hr)
        have heq : registerModel models (fuel + 1) st n =
            registerFields models fuel (dinsert st n (.mdl none flds)) flds := by
          simp only [registerModel, hl]
        rw [heq]
        rcases registerFields_reach models rank fuel ih flds
          (dinsert st n (.mdl none flds)) hregflds hrankflds with ⟨hsucc, hiff⟩
        refine ⟨hsucc, fun k => ?_⟩
        rw [hiff k, dmem_dinsert, reaches_iff models n k, hrefs]
        have hnk : n = k ↔ k = n := eq_comm
        tauto
      | some p =>
        have hrefs : refs models n = p :: fieldsRefs flds := by
          simp [refs, hl]
        have hregflds : ∀ m, ReachesAny models (fieldsRefs flds) m →
            dmem models m = true := by
          rintro m ⟨r, hr, hm⟩
          exact hregsub r (by rw [hrefs]; exact List.mem_cons_of_mem p hr) m hm
        have hrankflds : ∀ r ∈ fieldsRefs flds, rank r < fuel := fun r hr =>
          hsub r (by rw [hrefs]; exact List.mem_cons_of_mem p hr)
        have hp_mem : p ∈ refs models n := by
          rw [hrefs]; exact List.mem_cons_self _ _
        have hregp : ∀ m, Reaches models p m → dmem models m = true :=
          hregsub p hp_mem
        have hrankp : rank p < fuel := hsub p hp_mem
        rcases ih (dinsert st n (.mdl (some p) flds)) p hregp hrankp with
          ⟨hsucc1, hiff1⟩
        rcases hpm : registerModel models fuel (dinsert st n (.mdl (some p) flds)) p
          with ⟨st2, err⟩
        rw [hpm] at hsucc1 hiff1
        cases err with
        | some e => simp at hsucc1
        | none =>
          have heq : registerModel models (fuel + 1) st n =
              registerFields models fuel st2 flds := by
            simp only [registerModel, hl, hpm]
          rw [heq]
          rcases registerFields_reach models rank fuel ih flds st2 hregflds
            hrankflds with ⟨hsucc, hiff⟩
          refine ⟨hsucc, fun k => ?_⟩
          rw [hiff k, hiff1 k, dmem_dinsert, reaches_iff models n k, hrefs,
            reachesAny_cons]
          have hnk : n = k ↔ k = n := eq_comm
          tauto

/-! ## Final document assembly (`as_dict`, lines 186-240) -/

/-- Is this value `None` or empty (empty mapping, empty list)? -/
def isNoneOrEmpty (v : Val) : Bool :=
  match v with
  | .vnone => true
  | .vlist [] => true
  | .vdict [] => true
  | _ => false

/-- Modelled from the spec: `utils.not_none` (not under `src/`) — "all
`None`/empty values removed before emission". -/
def notNone (d : AList) : AList :=
  d.filter (fun kv => !(isNoneOrEmpty kv.2))

/-- Insertion step of the key sort used by `not_none_sorted`. -/
def insertSorted (kv : String × Val) : AList → AList
  | [] => [kv]
  | hd :: tl => if kv.1 ≤ hd.1 then kv :: hd :: tl else hd :: insertSorted kv tl

/-- Modelled from the spec: `utils.not_none_sorted` (not under `src/`) —
`not_none` with the keys in sorted order. -/
def notNoneSorted (d : AList) : AList :=
  (notNone d).foldr insertSorted []

/-- Python `x or None`. -/
def orNone (v : Val) : Val :=
  if truthy v then v else .vnone

/-- The `basepath` normalisation of `as_dict` (lines 193-195): strip one
trailing slash unless the path is just `/`. -/
def basePathTrim (s : String) : String :=
  if s.length > 1 ∧ s.endsWith "/" then s.dropRight 1 else s

/-- The top-level assembly of `as_dict` (lines 226-240): the `specs` dict
with its twelve keys, built from the sub-results computed earlier in the
method (`infos`, `paths`, the tag list, the registered error responses, the
produced representations, the authorizations/security values, the serialized
definitions and the host), with `x or None` applied exactly where the code
does, then passed through `not_none`. -/
def asDictAssemble (basePath : String) (paths : AList) (infos : AList)
    (produces : List Val) (authorizations : Val) (security : Val)
    (tags : List Val) (definitions : AList) (responses : AList)
    (host : Val) : AList :=
  notNone [
    ("swagger", .vstr "2.0"),
    ("basePath", .vstr (basePathTrim basePath)),
    ("paths", .vdict (notNoneSorted paths)),
    ("info", .vdict infos),
    ("produces", .vlist produces),
    ("consumes", .vlist [.vstr "application/json"]),
    ("securityDefinitions", orNone authorizations),
    ("security", orNone security),
    ("tags", .vlist tags),
    ("definitions", orNone (.vdict definitions)),
    ("responses", orNone (.vdict responses)),
    ("host", host)]

/-- The twelve keys of the top-level specification mapping. -/
def TOPKEYS : List String :=
  ["swagger", "basePath", "paths", "info", "produces", "consumes",
   "securityDefinitions", "security", "tags", "definitions", "responses",
   "host"]

/-! ## Response assembly (`responses_for`, lines 423-455)

`responses_for(doc, method)` walks the two sources `doc` and `doc[method]`.
From each it reads the declared `responses` (code → description or
(description, model) pair), the declared `model` with its `default_code`,
and the parsed docstring's `:raises:` names, which are cross-referenced
against `api._error_handlers` (represented by each handler's exception name
together with the first response code of its `__apidoc__['responses']`,
`none` when it has none).  Response codes are represented as strings. -/

def DEFAULT_RESPONSE_DESCRIPTION : String := "Success"

/-- Embeds `DEFAULT_RESPONSE` (line 52). -/
def DEFAULT_RESPONSE : AList :=
  [("description", .vstr DEFAULT_RESPONSE_DESCRIPTION)]

/-- The data `responses_for` reads from one doc source. -/
structure RDoc where
  responses : Option (List (String × (Option String × Option SchemaInput)))
  model : Option SchemaInput
  defaultCode : Option Nat
  docstringRaises : Option (List (String × String))

/-- Computes `description or DEFAULT_RESPONSE_DESCRIPTION`. -/
def descOr (d : Option String) : String :=
  match d with
  | some s => if s = "" then DEFAULT_RESPONSE_DESCRIPTION else s
  | none => DEFAULT_RESPONSE_DESCRIPTION

/-- Performs `responses[code][key] = v` (the entries built here are always dicts). -/
def setInner (resps : AList) (code key : String) (v : Val) : AList :=
  match dlookup resps code with
  | some (.vdict d) => dinsert resps code (.vdict (dinsert d key v))
  | _ => resps

/-- The `for code, response in iteritems(d['responses'])` loop. -/
def processRespDecls (models : Dict ModelSpec) (fuel : Nat) (st : RegState)
    (resps : AList) :
    List (String × (Option String × Option SchemaInput)) →
      RegState × Except Err AList
  | [] => (st, .ok resps)
  | (code, (desc, mdl)) :: rest =>
    let d := descOr desc
    let resps :=
      if dmem resps code then setInner resps code "description" (.vstr d)
      else dinsert resps code (.vdict [("description", .vstr d)])
    match mdl with
    | none => processRespDecls models fuel st resps rest
    | some m =>
      match serializeSchema models fuel st m with
      | (st, .error e) => (st, .error e)
      | (st, .ok schema) =>
        processRespDecls models fuel st (setInner resps code "schema" schema) rest

/-- Is the first response code of a handler's apidoc truthy? -/
def codeOk (c : Option String) : Bool :=
  match c with
  | some s => s ≠ ""
  | none => false

/-- The `for name, description in d['docstring']['raises'].items()` loop:
for each raised name, the first error handler whose exception name matches
and whose apidoc declares a response code contributes
`responses[code] = {'$ref': '#/responses/<name>'}`. -/
def processRaises (handlers : List (String × Option String)) (resps : AList) :
    List (String × String) → AList
  | [] => resps
  | (name, _) :: rest =>
    match handlers.find? (fun h => codeOk h.2 && h.1 = name) with
    | some (_, some code) =>
      processRaises handlers
        (dinsert resps code (.vdict [("$ref", .vstr ("#/responses/" ++ name))])) rest
    | _ => processRaises handlers resps rest

/-- One iteration of the `for d in doc, doc[method]` loop of
`responses_for`. -/
def processRespDoc (models : Dict ModelSpec) (fuel : Nat)
    (handlers : List (String × Option String)) (st : RegState) (resps : AList)
    (d : RDoc) : RegState × Except Err AList :=
  let step1 : RegState × Except Err AList :=
    match d.responses with
    | some decls => processRespDecls models fuel st resps decls
    | none => (st, .ok resps)
  match step1 with
  | (st, .error e) => (st, .error e)
  | (st, .ok resps) =>
    let step2 : RegState × Except Err AList :=
      match d.model with
      | some m =>
        let code := toString (d.defaultCode.getD 200)
        let resps :=
          if dmem resps code then resps
          else dinsert resps code (.vdict DEFAULT_RESPONSE)
        match serializeSchema models fuel st m with
        | (st, .error e) => (st, .error e)
        | (st, .ok schema) => (st, .ok (setInner resps code "schema" schema))
      | none => (st, .ok resps)
    match step2 with
    | (st, .error e) => (st, .error e)
    | (st, .ok resps) =>
      match d.docstringRaises with
      | some raises => (st, .ok (processRaises handlers resps raises))
      | none => (st, .ok resps)

/-- Embeds `responses_for(doc, method)` (lines 423-455) over the two doc sources. -/
def responsesFor (models : Dict ModelSpec) (fuel : Nat)
    (handlers : List (String × Option String)) (st : RegState)
    (doc mdoc : RDoc) : RegState × Except Err AList :=
  match processRespDoc models fuel handlers st [] doc with
  | (st, .error e) => (st, .error e)
  | (st, .ok resps) =>
    match processRespDoc models fuel handlers st resps mdoc with
    | (st, .error e) => (st, .error e)
    | (st, .ok resps) =>
      if resps.isEmpty then (st, .ok [("200", .vdict DEFAULT_RESPONSE)])
      else (st, .ok resps)

/-! ## Parameter merging (`merge_params`, lines 292-317) -/

/-- The data `merge_params` reads from a doc dict: the declared `params`
mapping, the request parser's argument list, and the `body` declaration
(a model, or a (model, description) pair, normalised to model and optional
description). -/
structure PDoc where
  params : Option AList
  parserArgs : Option (List Arg)
  body : Option (SchemaInput × Option String)

/-- Embeds `merge_params(params, doc)` (lines 292-317): no-op when none of
`params`/`parser`/`body` is declared; otherwise merge, in order, the
parser-derived params, the declared params and the body payload parameter
onto the given (path-extracted) params. -/
def mergeParams (models : Dict ModelSpec) (fuel : Nat) (st : RegState)
    (params : AList) (doc : PDoc) : RegState × Except Err AList :=
  if doc.params.isNone && doc.parserArgs.isNone && doc.body.isNone then
    (st, .ok params)
  else
    let step1 : Except Err AList :=
      match doc.parserArgs with
      | some args =>
        match parserToParams args with
        | .error e => .error e
        | .ok pp => .ok (mergeD params pp)
      | none => .ok params
    match step1 with
    | .error e => (st, .error e)
    | .ok params =>
      let params :=
        match doc.params with
        | some dp => mergeD params dp
        | none => params
      match doc.body with
      | some (m, desc) =>
        match serializeSchema models fuel st m with
        | (st, .error e) => (st, .error e)
        | (st, .ok schema) =>
          let payload : AList := notNone [
            ("name", .vstr "payload"),
            ("required", .vbool true),
            ("in", .vstr "body"),
            ("schema", schema),
            ("description", match desc with | some s => .vstr s | none => .vnone)]
          (st, .ok (mergeD params [("payload", .vdict payload)]))
      | none => (st, .ok params)

/-- The parser-derived contribution of a doc (empty without a parser). -/
def parserPart (doc : PDoc) : Except Err AList :=
  match doc.parserArgs with
  | some args => parserToParams args
  | none => .ok []

/-- The body-payload contribution of a doc (empty without a body). -/
def bodyPart (models : Dict ModelSpec) (fuel : Nat) (st : RegState)
    (doc : PDoc) : RegState × Except Err AList :=
  match doc.body with
  | some (m, desc) =>
    match serializeSchema models fuel st m with
    | (st, .error e) => (st, .error e)
    | (st, .ok schema) =>
      (st, .ok [("payload", .vdict (notNone [
        ("name", .vstr "payload"),
        ("required", .vbool true),
        ("in", .vstr "body"),
        ("schema", schema),
        ("description", match desc with | some s => .vstr s | none => .vnone)]))])
  | none => (st, .ok [])

/-! ## Resource doc extraction (`extract_resource_doc`, lines 272-290)

The `__apidoc__` dicts attached to resource classes and method handlers
hold heterogeneous Python values; `DV` covers the shapes `swagger.py`
manipulates: plain document values, `False`, nested method sub-dicts,
request parsers, body declarations and parsed docstrings.

In Python `doc = getattr(resource, '__apidoc__', {})` ALIASES the class
attribute when it is a dict, and the subsequent `doc[...] = ...`
assignments mutate that dict in place; the embedding makes the post-call
attribute value explicit (`apidocAfter`). -/

/-- The `parse_docstring` output, as stored under `method_doc['docstring']`
(the docstring parsing itself is input data here). -/
structure ParsedDoc where
  summary : Option String
  details : Option String
  raises : List (String × String)

/-- A value inside an `__apidoc__` dict. -/
inductive DV where
  | val : Val → DV
  | fls : DV
  | sub : List (String × DV) → DV
  | parserV : List Arg → DV
  | bodyV : SchemaInput → Option String → DV
  | docstr : ParsedDoc → DV

/-- An `__apidoc__` dict. -/
abbrev DDict := Dict DV

/-- The value of an `__apidoc__` attribute: absent, `False`, or a dict. -/
inductive AttrVal where
  | absent : AttrVal
  | falseV : AttrVal
  | dictV : DDict → AttrVal

/-- A method handler: its (normalised) `__apidoc__` — `none` for `False`,
`some d` for a dict, an absent attribute being `some []` — and its parsed
docstring. -/
structure MethodImpl where
  attr : Option DDict
  pdoc : ParsedDoc

/-- A resource class as read by `extract_resource_doc`. -/
structure Resource where
  rname : String
  apidoc : AttrVal
  methods : List String
  impl : String → MethodImpl

/-- The view of a doc dict that `merge_params` reads (`params`, `parser`,
`body`); values of unexpected shape are treated as absent. -/
def pdocOf (d : DDict) : PDoc :=
  { params :=
      match dlookup d "params" with
      | some (.val (.vdict p)) => some p
      | _ => none,
    parserArgs :=
      match dlookup d "parser" with
      | some (.parserV args) => some args
      | _ => none,
    body :=
      match dlookup d "body" with
      | some (.bodyV m desc) => some (m, desc)
      | _ => none }

/-- Computes `merge(doc.get(method, OrderedDict()), getattr(method_impl,
'__apidoc__', OrderedDict()))`: a `False` attribute makes the method doc
`False` (`merge` returns its non-dict second argument); merging a dict into
a previous `False` or non-dict value raises `TypeError` (item assignment on
a non-dict) unless it is empty, in which case the `False` survives and a
non-dict value fails at the later `method_doc['docstring']` assignment. -/
def methodMerge (existing : Option DV) (attr : Option DDict) :
    Except Err (Option DDict) :=
  match attr with
  | none => .ok none
  | some d2 =>
    match existing with
    | none => .ok (some (mergeD [] d2))
    | some (.sub d1) => .ok (some (mergeD d1 d2))
    | some .fls =>
      if d2.isEmpty then .ok none
      else .error (.typeError "'bool' object does not support item assignment")
    | some _ => .error (.typeError "object does not support item assignment")

/-- The `for method in [m.lower() for m in resource.methods or []]` loop of
`extract_resource_doc`: on an exception the doc mutated so far is kept
(third component carries the raised error). -/
def extractMethodsGo (models : Dict ModelSpec) (fuel : Nat)
    (impl : String → MethodImpl) (st : RegState) (doc : DDict) :
    List String → RegState × DDict × Option Err
  | [] => (st, doc, none)
  | m :: rest =>
    let mi := impl m
    match methodMerge (dlookup doc m) mi.attr with
    | .error e => (st, doc, some e)
    | .ok none => extractMethodsGo models fuel impl st (dinsert doc m .fls) rest
    | .ok (some md) =>
      let md := dinsert md "docstring" (.docstr mi.pdoc)
      match mergeParams models fuel st [] (pdocOf md) with
      | (st, .error e) => (st, doc, some e)
      | (st, .ok mp) =>
        let md := dinsert md "params" (.val (.vdict mp))
        extractMethodsGo models fuel impl st (dinsert doc m (.sub md)) rest

/-- The result of `extract_resource_doc`: `False`, a raised exception (with
the partially mutated doc), or the merged doc. -/
inductive ExtractResult where
  | falseDoc : ExtractResult
  | failed : Err → DDict → ExtractResult
  | ok : DDict → ExtractResult

/-- The body of `extract_resource_doc` once the starting doc dict is known. -/
def extractResourceDocFrom (models : Dict ModelSpec) (fuel : Nat)
    (converters : List String) (st : RegState) (r : Resource) (url : String)
    (doc0 : DDict) : RegState × ExtractResult :=
  let doc := dinsert doc0 "name" (.val (.vstr r.rname))
  match extractPathParams converters url with
  | .error e => (st, .failed e doc)
  | .ok pathParams =>
    match mergeParams models fuel st pathParams (pdocOf doc) with
    | (st, .error e) => (st, .failed e doc)
    | (st, .ok ps) =>
      let doc := dinsert doc "params" (.val (.vdict ps))
      match extractMethodsGo models fuel r.impl st doc r.methods with
      | (st, d, some e) => (st, .failed e d)
      | (st, d, none) => (st, .ok d)

/-- Embeds `extract_resource_doc(resource, url)` (lines 272-290). -/
def extractResourceDoc (models : Dict ModelSpec) (fuel : Nat)
    (converters : List String) (st : RegState) (r : Resource) (url : String) :
    RegState × ExtractResult :=
  match r.apidoc with
  | .falseV => (st, .falseDoc)
  | .absent => extractResourceDocFrom models fuel converters st r url []
  | .dictV d0 => extractResourceDocFrom models fuel converters st r url d0

/-- The resource's `__apidoc__` once `extract_resource_doc` returns (or
raises): when the attribute was a dict, `doc` aliased it and every
`doc[...] = ...` assignment mutated it in place, so it ends up as the dict
the call built; otherwise it is untouched. -/
def apidocAfter (models : Dict ModelSpec) (fuel : Nat)
    (converters : List String) (st : RegState) (r : Resource) (url : String) :
    AttrVal :=
  match r.apidoc with
  | .dictV _ =>
    match (extractResourceDoc models fuel converters st r url).2 with
    | .falseDoc => r.apidoc
    | .failed _ d => .dictV d
    | .ok d => .dictV d
  | a => a

/-! ## Claim theorems -/

/-- C1: For every API instance, the top-level specification mapping returned
by `Swagger.as_dict` contains only the keys `swagger, basePath, paths, info,
produces, consumes, securityDefinitions, security, tags, definitions,
responses, host`, and every key whose value is `None` or empty (empty
mapping, empty list) is removed before the mapping is returned. -/
theorem c1_as_dict_top_level_keys (basePath : String) (paths : AList)
    (infos : AList) (produces : List Val) (authorizations : Val)
    (security : Val) (tags : List Val) (definitions : AList)
    (responses : AList) (host : Val) :
    ∀ kv ∈ asDictAssemble basePath paths infos produces authorizations
        security tags definitions responses host,
      kv.1 ∈ TOPKEYS ∧ isNoneOrEmpty kv.2 = false := by
  intro kv hkv
  unfold asDictAssemble notNone at hkv
  rcases List.mem_filter.mp hkv with ⟨hmem, hpred⟩
  refine ⟨?_, by simpa using hpred⟩
  have hmap := List.mem_map_of_mem Prod.fst hmem
  simpa [TOPKEYS] using hmap

/-- Witness for C1 at a concrete API: the `swagger` entry of a minimal
document. -/
theorem c1_witness :
    ("swagger", Val.vstr "2.0") ∈
      asDictAssemble "/" [] [("title", .vstr "T")] [] .vnone .vnone [] [] []
        .vnone ∧
    ("swagger" : String) ∈ TOPKEYS ∧ isNoneOrEmpty (Val.vstr "2.0") = false := by
  have hm : ("swagger", Val.vstr "2.0") ∈
      asDictAssemble "/" [] [("title", .vstr "T")] [] .vnone .vnone [] [] []
        .vnone := by
    simp [asDictAssemble, notNone, notNoneSorted, isNoneOrEmpty, orNone,
      truthy, basePathTrim]
  exact ⟨hm, c1_as_dict_top_level_keys "/" [] [("title", .vstr "T")] []
    .vnone .vnone [] [] [] .vnone ("swagger", Val.vstr "2.0") hm⟩

/-- C10: every argument whose location is `cookie` is silently omitted by
`parser_to_params`: the result (parameters and the body/formData conflict
check alike) is that of the parser with the cookie arguments dropped. -/
theorem c10_cookie_args_omitted (args : List Arg) :
    parserToParams args =
      parserToParams (args.filter (fun a => a.location ≠ "cookie")) := by
  suffices h : ∀ args params locations,
      parserToParamsGo args params locations =
        parserToParamsGo (args.filter (fun a => a.location ≠ "cookie"))
          params locations by
    exact h args [] []
  intro args
  induction args with
  | nil => intro params locations; rfl
  | cons a rest ih =>
    intro params locations
    by_cases hc : a.location = "cookie"
    · simp [List.filter_cons, parserToParamsGo, hc]
      simpa using ih params locations
    · simp [List.filter_cons, parserToParamsGo, hc]
      cases hpa : paramForArg a with
      | error e => simp [hpa]
      | ok param => simp [hpa]; simpa using ih _ _

/-- C3: For every model reference encountered while serializing parameters
or responses, if the referenced model name is not registered in the owning
API object's `models` mapping then document generation aborts with a raised
`ValueError`; if it is registered, no such error is raised for that
reference — any `Model … not registered` failure that still occurs names an
unregistered (hence different) model reached recursively (a cyclic graph,
which makes CPython overflow its stack, surfaces as the modelled
recursion-limit error instead). -/
theorem c3_unregistered_model_reference (models : Dict ModelSpec) (fuel : Nat)
    (st : RegState) (name : String) :
    (dlookup models name = none →
      (serializeSchema models (fuel + 1) st (.modelRef name)).2 =
        .error (.valueError ("Model " ++ name ++ " not registered"))) ∧
    (∀ specs, dlookup models name = some specs →
      ∀ e, (serializeSchema models (fuel + 1) st (.modelRef name)).2 = .error e →
        e = .recursionError ∨
          ∃ m, e = .valueError ("Model " ++ m ++ " not registered") ∧
            dlookup models m = none ∧ m ≠ name) := by
  constructor
  · intro hnone
    have heq : registerModel models (fuel + 1) st name =
        (st, some (.valueError ("Model " ++ name ++ " not registered"))) := by
      simp only [registerModel, hnone]
    simp only [serializeSchema, heq]
  · intro specs hsome e he
    have herr : (registerModel models (fuel + 1) st name).2 = some e := by
      rcases hr : registerModel models (fuel + 1) st name with ⟨st', err⟩
      simp only [serializeSchema, hr] at he
      cases err with
      | none => simp at he
      | some e' =>
        simp at he
        exact congrArg some he
    rcases registerModel_err models (fuel + 1) st name e herr with hrec | ⟨m, hm, hmn⟩
    · exact .inl hrec
    · refine .inr ⟨m, hm, hmn, fun hcontra => ?_⟩
      rw [hcontra, hsome] at hmn
      exact Option.noConfusion hmn

/-- Witness for C3: looking up the unregistered name `B` aborts with the
`ValueError`. -/
theorem c3_witness :
    dlookup [("A", ModelSpec.plain .vnone)] "B" = none ∧
    (serializeSchema [("A", ModelSpec.plain .vnone)] 1 [] (.modelRef "B")).2 =
      .error (.valueError ("Model " ++ "B" ++ " not registered")) := by
  have h : dlookup [("A", ModelSpec.plain .vnone)] "B" =
      (none : Option ModelSpec) := by simp [dlookup]
  exact ⟨h, (c3_unregistered_model_reference _ 0 [] "B").1 h⟩

/-- Lemma: `dlookup` over the `map` that `serialize_definitions` performs. -/
theorem dlookup_map_schemaOf (schemaOf : ModelSpec → Val) (st : RegState)
    (k : String) :
    dlookup (serializeDefinitions schemaOf st) k =
      (dlookup st k).map schemaOf := by
  induction st with
  | nil => simp [serializeDefinitions, dlookup]
  | cons hd tl ih =>
    obtain ⟨k', v'⟩ := hd
    by_cases hk : k' = k <;>
      simpa [serializeDefinitions, dlookup, hk] using ih

/-- C9: at every point during and after any sequence of `register_model`
and `serialize_schema` calls, every key of `_registered_models` is also a
key of the API's `models` mapping and maps to the same specs object; hence
`serialize_definitions` emits only schemas of models registered on the
API. -/
theorem c9_registry_matches_api_models (models : Dict ModelSpec) (fuel : Nat)
    (name : String) (input : SchemaInput) (st : RegState)
    (schemaOf : ModelSpec → Val) :
    RegInv models [] ∧
    (RegInv models st → RegInv models (registerModel models fuel st name).1) ∧
    (RegInv models st → RegInv models (serializeSchema models fuel st input).1) ∧
    (RegInv models st → ∀ k v, dlookup st k = some v →
      dlookup models k = some v ∧
      dlookup (serializeDefinitions schemaOf st) k = some (schemaOf v)) := by
  refine ⟨regInv_empty models, registerModel_inv models fuel st name,
    serializeSchema_inv models fuel input st, fun hst k v hk => ?_⟩
  refine ⟨hst k v hk, ?_⟩
  rw [dlookup_map_schemaOf, hk]
  rfl

/-- Witness for C9: registering a model on a one-model API keeps the
registry inside `api.models`. -/
theorem c9_witness :
    RegInv [("A", ModelSpec.plain .vnone)]
      (registerModel [("A", ModelSpec.plain .vnone)] 1 [] "A").1 :=
  (c9_registry_matches_api_models [("A", .plain .vnone)] 1 "A" .other []
    (fun _ => .vnone)).2.1 (regInv_empty _)

/-- Lemma: in a reference-closed model graph, reachability from a
registered name stays registered. -/
theorem reaches_closed (models : Dict ModelSpec)
    (hclosed : ∀ a b, b ∈ refs models a → dmem models b = true) :
    ∀ n m, Reaches models n m → dmem models n = true → dmem models m = true := by
  intro n m h
  induction h with
  | refl => exact id
  | step hr _ ih => exact fun _ => ih (hclosed _ _ hr)

/-- C8: for every model whose reachable reference graph — through parent
models, nested fields, list containers and polymorph mappings, resolved via
`api.models` — is finite and acyclic (witnessed by a rank function
decreasing along references) and entirely registered, `register_model`
terminates without error (given fuel above the start rank) and registers
exactly the models of that graph into the registry. -/
theorem c8_register_model_registers_reachable (models : Dict ModelSpec)
    (rank : String → Nat) (fuel : Nat) (st : RegState) (name : String)
    (hedge : ∀ a b, b ∈ refs models a → rank b < rank a)
    (hreg : ∀ m, Reaches models name m → dmem models m = true)
    (hfuel : rank name < fuel) :
    (registerModel models fuel st name).2 = none ∧
    (∀ k, dmem (registerModel models fuel st name).1 k = true ↔
      dmem st k = true ∨ Reaches models name k) :=
  registerModel_reach models rank hedge fuel st name hreg hfuel

/-- Witness for C8 on a three-model graph `C --parent--> P`,
`C --nested--> L`: registration succeeds and the registry is exactly the
reachable set. -/
theorem c8_witness :
    (registerModel
        [("C", ModelSpec.mdl (some "P") [.nested "L"]),
         ("P", ModelSpec.plain .vnone), ("L", ModelSpec.plain .vnone)]
        2 [] "C").2 = none ∧
    (dmem (registerModel
        [("C", ModelSpec.mdl (some "P") [.nested "L"]),
         ("P", ModelSpec.plain .vnone), ("L", ModelSpec.plain .vnone)]
        2 [] "C").1 "L" = true ↔
      dmem ([] : RegState) "L" = true ∨
        Reaches
          [("C", ModelSpec.mdl (some "P") [.nested "L"]),
           ("P", ModelSpec.plain .vnone), ("L", ModelSpec.plain .vnone)]
          "C" "L") := by
  have hrefs : ∀ a b,
      b ∈ refs [("C", ModelSpec.mdl (some "P") [.nested "L"]),
        ("P", ModelSpec.plain .vnone), ("L", ModelSpec.plain .vnone)] a →
      (b = "P" ∨ b = "L") ∧ a = "C" := by
    intro a b hb
    by_cases h1 : ("C" : String) = a
    · subst h1
      simp [refs, dlookup, fieldsRefs, fieldRefs] at hb
      rcases hb with rfl | rfl
      · exact ⟨.inl rfl, rfl⟩
      · exact ⟨.inr rfl, rfl⟩
    · by_cases h2 : ("P" : String) = a
      · subst h2
        simp [refs, dlookup, h1] at hb
      · by_cases h3 : ("L" : String) = a
        · subst h3
          simp [refs, dlookup, h1, h2] at hb
        · simp [refs, dlookup, h1, h2, h3] at hb
  have hedge : ∀ a b,
      b ∈ refs [("C", ModelSpec.mdl (some "P") [.nested "L"]),
        ("P", ModelSpec.plain .vnone), ("L", ModelSpec.plain .vnone)] a →
      (fun n => if n = "C" then 1 else 0) b <
        (fun n => if n = "C" then 1 else 0) a := by
    intro a b hb
    rcases hrefs a b hb with ⟨hbv, rfl⟩
    rcases hbv with rfl | rfl <;> simp
  have hclosed : ∀ a b,
      b ∈ refs [("C", ModelSpec.mdl (some "P") [.nested "L"]),
        ("P", ModelSpec.plain .vnone), ("L", ModelSpec.plain .vnone)] a →
      dmem [("C", ModelSpec.mdl (some "P") [.nested "L"]),
        ("P", ModelSpec.plain .vnone), ("L", ModelSpec.plain .vnone)] b = true := by
    intro a b hb
    rcases hrefs a b hb with ⟨hbv, rfl⟩
    rcases hbv with rfl | rfl <;> simp [dmem, dlookup]
  have hreg : ∀ m,
      Reaches [("C", ModelSpec.mdl (some "P") [.nested "L"]),
        ("P", ModelSpec.plain .vnone), ("L", ModelSpec.plain .vnone)] "C" m →
      dmem [("C", ModelSpec.mdl (some "P") [.nested "L"]),
        ("P", ModelSpec.plain .vnone), ("L", ModelSpec.plain .vnone)] m = true :=
    fun m hm => reaches_closed _ hclosed "C" m hm (by simp [dmem, dlookup])
  have h := c8_register_model_registers_reachable
    [("C", ModelSpec.mdl (some "P") [.nested "L"]),
     ("P", ModelSpec.plain .vnone), ("L", ModelSpec.plain .vnone)]
    (fun n => if n = "C" then 1 else 0) 2 [] "C" hedge hreg (by simp)
  exact ⟨h.1, h.2 "L"⟩

/-- The parameter name a regex match contributes (when it processes without
an exception). -/
def matchName (converters : List String) (m : List Char) : Option String :=
  match processMatch converters m with
  | .ok (n, _) => some n
  | .error _ => none

theorem extractPathParamsGo_mem (converters : List String) :
    ∀ ms params ps, extractPathParamsGo converters ms params = .ok ps →
      ∀ k, dmem ps k = true ↔
        dmem params k = true ∨ ∃ m ∈ ms, matchName converters m = some k := by
  intro ms
  induction ms with
  | nil =>
    intro params ps h k
    simp only [extractPathParamsGo] at h
    cases h
    simp
  | cons m rest ih =>
    intro params ps h k
    simp only [extractPathParamsGo] at h
    cases hpm : processMatch converters m with
    | error e => rw [hpm] at h; simp at h
    | ok np =>
      obtain ⟨name, param⟩ := np
      rw [hpm] at h
      rw [ih _ ps h k, dmem_dinsert]
      have hmn : matchName converters m = some name := by simp [matchName, hpm]
      simp only [List.mem_cons, hmn]
      constructor
      · rintro ((rfl | hp) | ⟨m', hm', hk⟩)
        · exact .inr ⟨m, .inl rfl, hmn⟩
        · exact .inl hp
        · exact .inr ⟨m', .inr hm', hk⟩
      · rintro (hp | ⟨m', hm' | hm', hk⟩)
        · exact .inl (.inr hp)
        · subst hm'
          rw [hmn] at hk
          exact .inl (.inl (Option.some.inj hk))
        · exact .inr ⟨m', hm', hk⟩

/-- C4: `extract_path_params` produces one path parameter per
`<converter:name>` segment of the URL pattern, typed by the converter:
`int` maps to `integer`, `float` to `number`, `string` or no converter to
`string`; any other converter registered in the application's URL-map
converters yields `string`; and an unknown converter raises `ValueError`. -/
theorem c4_extract_path_params (converters : List String) :
    (PATH_TYPES (some "int") = some "integer" ∧
     PATH_TYPES (some "float") = some "number" ∧
     PATH_TYPES (some "string") = some "string" ∧
     PATH_TYPES none = some "string") ∧
    (∀ n : List Char, ':' ∉ n →
      processMatch converters n =
        .ok (String.mk n, pathParam (String.mk n) "string")) ∧
    (∀ d n : List Char, ':' ∉ d → ':' ∉ n →
      ∀ t, PATH_TYPES (some (String.mk d)) = some t →
        processMatch converters (d ++ ':' :: n) =
          .ok (String.mk n, pathParam (String.mk n) t)) ∧
    (∀ d n : List Char, ':' ∉ d → ':' ∉ n →
      PATH_TYPES (some (String.mk d)) = none → String.mk d ∈ converters →
        processMatch converters (d ++ ':' :: n) =
          .ok (String.mk n, pathParam (String.mk n) "string")) ∧
    (∀ d n : List Char, ':' ∉ d → ':' ∉ n →
      PATH_TYPES (some (String.mk d)) = none → String.mk d ∉ converters →
        processMatch converters (d ++ ':' :: n) =
          .error (.valueError "Unsupported type converter")) ∧
    (∀ path ps, extractPathParams converters path = .ok ps →
      ∀ k, dmem ps k = true ↔
        ∃ m ∈ scanParams path.toList, matchName converters m = some k) := by
  refine ⟨⟨rfl, rfl, rfl, rfl⟩, ?_, ?_, ?_, ?_, ?_⟩
  · intro n hn
    exact processMatch_type_eq converters n none n "string"
      (splitColon_noColon n hn) rfl
  · intro d n hd hn t ht
    exact processMatch_type_eq converters (d ++ ':' :: n) (some d) n t
      (splitColon_pair d n hd hn) ht
  · intro d n hd hn ht hmem
    simp [processMatch, splitColon_pair d n hd hn, ht, hmem, pathParam, dinsert]
  · intro d n hd hn ht hmem
    simp [processMatch, splitColon_pair d n hd hn, ht, hmem]
  · intro path ps h k
    rw [extractPathParamsGo_mem converters _ [] ps h k]
    simp [dmem, dlookup]

/-- Witness for C4: the plain segment `id` becomes a required string path
parameter, and `/x/<int:id>` yields exactly the parameter named `id`. -/
theorem c4_witness :
    ((':' ∉ ['i', 'd']) ∧
      processMatch [] ['i', 'd'] =
        .ok (String.mk ['i', 'd'], pathParam (String.mk ['i', 'd']) "string")) ∧
    (extractPathParams [] "/x/<int:id>" =
        .ok [("id", .vdict (pathParam "id" "integer"))] ∧
      (dmem [("id", Val.vdict (pathParam "id" "integer"))] "id" = true ↔
        ∃ m ∈ scanParams "/x/<int:id>".toList,
          matchName [] m = some "id")) := by
  have hn : ':' ∉ ['i', 'd'] := by decide
  have hext : extractPathParams [] "/x/<int:id>" =
      .ok [("id", .vdict (pathParam "id" "integer"))] := by
    simp [extractPathParams, scanParams, scanInner, extractPathParamsGo,
      processMatch, splitColon, PATH_TYPES, pathParam, dinsert, String.toList]
  exact ⟨⟨hn, (c4_extract_path_params []).2.1 ['i', 'd'] hn⟩,
    ⟨hext, (c4_extract_path_params []).2.2.2.2.2 "/x/<int:id>" _ hext "id"⟩⟩

theorem processRaises_noop (handlers : List (String × Option String)) :
    ∀ raises resps,
      (∀ nm ∈ raises,
        handlers.find? (fun h => codeOk h.2 && h.1 = nm.1) = none) →
      processRaises handlers resps raises = resps := by
  intro raises
  induction raises with
  | nil => intro resps _; rfl
  | cons nm rest ih =>
    intro resps hall
    obtain ⟨name, d⟩ := nm
    have hfind : handlers.find? (fun h => codeOk h.2 && h.1 = name) = none :=
      hall (name, d) (List.mem_cons_self _ _)
    simp only [processRaises, hfind]
    exact ih resps (fun nm' hm' => hall nm' (List.mem_cons_of_mem _ hm'))

theorem processRespDoc_noop (models : Dict ModelSpec) (fuel : Nat)
    (handlers : List (String × Option String)) (st : RegState) (resps : AList)
    (d : RDoc) (hr : d.responses.getD [] = []) (hm : d.model = none)
    (hraises : ∀ nm ∈ d.docstringRaises.getD [],
      handlers.find? (fun h => codeOk h.2 && h.1 = nm.1) = none) :
    processRespDoc models fuel handlers st resps d = (st, .ok resps) := by
  have hstep1 :
      (match d.responses with
        | some decls => processRespDecls models fuel st resps decls
        | none => (st, .ok resps)) = (st, Except.ok resps) := by
    cases hdr : d.responses with
    | none => rfl
    | some decls =>
      have : decls = [] := by simpa [hdr] using hr
      subst this
      rfl
  cases hds : d.docstringRaises with
  | none => simp only [processRespDoc, hstep1, hm, hds]
  | some raises =>
    have hnoop : processRaises handlers resps raises = resps :=
      processRaises_noop handlers raises resps (by simpa [hds] using hraises)
    simp only [processRespDoc, hstep1, hm, hds, hnoop]

/-- C7: for every operation for which no response code, no model and no
cross-referenced documented exception apply (in either the resource doc or
the method doc), `responses_for` returns exactly one response entry, code
`'200'` with description `'Success'`. -/
theorem c7_default_response (models : Dict ModelSpec) (fuel : Nat)
    (handlers : List (String × Option String)) (st : RegState)
    (doc mdoc : RDoc)
    (h1 : doc.responses.getD [] = []) (h2 : doc.model = none)
    (h3 : ∀ nm ∈ doc.docstringRaises.getD [],
      handlers.find? (fun h => codeOk h.2 && h.1 = nm.1) = none)
    (h4 : mdoc.responses.getD [] = []) (h5 : mdoc.model = none)
    (h6 : ∀ nm ∈ mdoc.docstringRaises.getD [],
      handlers.find? (fun h => codeOk h.2 && h.1 = nm.1) = none) :
    responsesFor models fuel handlers st doc mdoc =
      (st, .ok [("200", .vdict [("description", .vstr "Success")])]) := by
  have hd1 := processRespDoc_noop models fuel handlers st [] doc h1 h2 h3
  have hd2 := processRespDoc_noop models fuel handlers st [] mdoc h4 h5 h6
  simp [responsesFor, hd1, hd2, DEFAULT_RESPONSE, DEFAULT_RESPONSE_DESCRIPTION]

/-- Witness for C7: an operation with no declared responses, no model and
no raises gets the single default `200` / `Success` response. -/
theorem c7_witness :
    responsesFor [] 1 [] [] ⟨none, none, none, none⟩ ⟨none, none, none, none⟩ =
      ([], .ok [("200", .vdict [("description", .vstr "Success")])]) :=
  c7_default_response [] 1 [] [] ⟨none, none, none, none⟩
    ⟨none, none, none, none⟩ rfl rfl (by simp) rfl rfl (by simp)

/-- C5: for every resource/method doc, the merged parameter mapping is
built by merging, in order, the path-extracted params (the `params` argument
of `merge_params`), the parser-derived params, the explicitly declared
params and the body-model payload param, a later source overriding an
earlier one on every conflicting key. -/
theorem c5_merge_params_order (models : Dict ModelSpec) (fuel : Nat)
    (st : RegState) (params : AList) (doc : PDoc) (st' : RegState)
    (res : AList) (h : mergeParams models fuel st params doc = (st', .ok res)) :
    ∃ pp bp, parserPart doc = .ok pp ∧ (bodyPart models fuel st doc).2 = .ok bp ∧
      ∀ k, dlookup res k =
        (dlookupR bp k).orElse (fun _ =>
          (dlookupR (doc.params.getD []) k).orElse (fun _ =>
            (dlookupR pp k).orElse (fun _ => dlookup params k))) := by
  rcases hpa : doc.parserArgs with _ | args <;>
    rcases hdp : doc.params with _ | dp <;>
      rcases hb : doc.body with _ | ⟨m, _ | sdesc⟩ <;>
        simp only [mergeParams, hpa, hdp, hb] at h
  · -- no parser, no params, no body: early return
    simp only [Option.isNone_none, Bool.and_self, if_true] at h
    injection h with h1 h2
    subst h1
    injection h2 with h3
    subst h3
    refine ⟨[], [], by simp [parserPart, hpa], by simp [bodyPart, hb], fun k => ?_⟩
    simp [dlookupR, Option.orElse]
  · -- body only (no description)
    rcases hss : serializeSchema models fuel st m with ⟨st2, r⟩
    rw [hss] at h
    cases r with
    | error e => simp at h
    | ok schema =>
      simp only at h
      injection h with h1 h2
      subst h1
      injection h2 with h3
      subst h3
      refine ⟨[], [("payload", Val.vdict (notNone [("name", .vstr "payload"),
        ("required", .vbool true), ("in", .vstr "body"), ("schema", schema),
        ("description", Val.vnone)]))], by simp [parserPart, hpa], ?_, fun k => ?_⟩
      · simp [bodyPart, hb, hss]
      · simp [dlookup_mergeD, dlookupR, Option.orElse]
  · -- body only (with description)
    rcases hss : serializeSchema models fuel st m with ⟨st2, r⟩
    rw [hss] at h
    cases r with
    | error e => simp at h
    | ok schema =>
      simp only at h
      injection h with h1 h2
      subst h1
      injection h2 with h3
      subst h3
      refine ⟨[], [("payload", Val.vdict (notNone [("name", .vstr "payload"),
        ("required", .vbool true), ("in", .vstr "body"), ("schema", schema),
        ("description", Val.vstr sdesc)]))], by simp [parserPart, hpa], ?_, fun k => ?_⟩
      · simp [bodyPart, hb, hss]
      · simp [dlookup_mergeD, dlookupR, Option.orElse]
  · -- params only
    injection h with h1 h2
    subst h1
    injection h2 with h3
    subst h3
    refine ⟨[], [], by simp [parserPart, hpa], by simp [bodyPart, hb], fun k => ?_⟩
    simp [dlookup_mergeD, dlookupR, Option.orElse]
  · -- params and body (no description)
    rcases hss : serializeSchema models fuel st m with ⟨st2, r⟩
    rw [hss] at h
    cases r with
    | error e => simp at h
    | ok schema =>
      simp only at h
      injection h with h1 h2
      subst h1
      injection h2 with h3
      subst h3
      refine ⟨[], [("payload", Val.vdict (notNone [("name", .vstr "payload"),
        ("required", .vbool true), ("in", .vstr "body"), ("schema", schema),
        ("description", Val.vnone)]))], by simp [parserPart, hpa], ?_, fun k => ?_⟩
      · simp [bodyPart, hb, hss]
      · simp [dlookup_mergeD, dlookupR, Option.orElse]
  · -- params and body (with description)
    rcases hss : serializeSchema models fuel st m with ⟨st2, r⟩
    rw [hss] at h
    cases r with
    | error e => simp at h
    | ok schema =>
      simp only at h
      injection h with h1 h2
      subst h1
      injection h2 with h3
      subst h3
      refine ⟨[], [("payload", Val.vdict (notNone [("name", .vstr "payload"),
        ("required", .vbool true), ("in", .vstr "body"), ("schema", schema),
        ("description", Val.vstr sdesc)]))], by simp [parserPart, hpa], ?_, fun k => ?_⟩
      · simp [bodyPart, hb, hss]
      · simp [dlookup_mergeD, dlookupR, Option.orElse]
  · -- parser only
    cases hpp : parserToParams args with
    | error e => rw [hpp] at h; simp at h
    | ok pp =>
      rw [hpp] at h
      simp only at h
      injection h with h1 h2
      subst h1
      injection h2 with h3
      subst h3
      refine ⟨pp, [], by simp [parserPart, hpa, hpp],
        by simp [bodyPart, hb], fun k => ?_⟩
      simp [dlookup_mergeD, dlookupR, Option.orElse]
  · -- parser and body (no description)
    cases hpp : parserToParams args with
    | error e => rw [hpp] at h; simp at h
    | ok pp =>
      rw [hpp] at h
      simp only at h
      rcases hss : serializeSchema models fuel st m with ⟨st2, r⟩
      rw [hss] at h
      cases r with
      | error e => simp at h
      | ok schema =>
        simp only at h
        injection h with h1 h2
        subst h1
        injection h2 with h3
        subst h3
        refine ⟨pp, [("payload", Val.vdict (notNone [("name", .vstr "payload"),
          ("required", .vbool true), ("in", .vstr "body"), ("schema", schema),
          ("description", Val.vnone)]))], by simp [parserPart, hpa, hpp], ?_,
          fun k => ?_⟩
        · simp [bodyPart, hb, hss]
        · simp [dlookup_mergeD, dlookupR, Option.orElse]
  · -- parser and body (with description)
    cases hpp : parserToParams args with
    | error e => rw [hpp] at h; simp at h
    | ok pp =>
      rw [hpp] at h
      simp only at h
      rcases hss : serializeSchema models fuel st m with ⟨st2, r⟩
      rw [hss] at h
      cases r with
      | error e => simp at h
      | ok schema =>
        simp only at h
        injection h with h1 h2
        subst h1
        injection h2 with h3
        subst h3
        refine ⟨pp, [("payload", Val.vdict (notNone [("name", .vstr "payload"),
          ("required", .vbool true), ("in", .vstr "body"), ("schema", schema),
          ("description", Val.vstr sdesc)]))], by simp [parserPart, hpa, hpp], ?_,
          fun k => ?_⟩
        · simp [bodyPart, hb, hss]
        · simp [dlookup_mergeD, dlookupR, Option.orElse]
  · -- parser and params
    cases hpp : parserToParams args with
    | error e => rw [hpp] at h; simp at h
    | ok pp =>
      rw [hpp] at h
      simp only at h
      injection h with h1 h2
      subst h1
      injection h2 with h3
      subst h3
      refine ⟨pp, [], by simp [parserPart, hpa, hpp],
        by simp [bodyPart, hb], fun k => ?_⟩
      simp [dlookup_mergeD, dlookupR, Option.orElse]
  · -- parser, params and body (no description)
    cases hpp : parserToParams args with
    | error e => rw [hpp] at h; simp at h
    | ok pp =>
      rw [hpp] at h
      simp only at h
      rcases hss : serializeSchema models fuel st m with ⟨st2, r⟩
      rw [hss] at h
      cases r with
      | error e => simp at h
      | ok schema =>
        simp only at h
        injection h with h1 h2
        subst h1
        injection h2 with h3
        subst h3
        refine ⟨pp, [("payload", Val.vdict (notNone [("name", .vstr "payload"),
          ("required", .vbool true), ("in", .vstr "body"), ("schema", schema),
          ("description", Val.vnone)]))], by simp [parserPart, hpa, hpp], ?_,
          fun k => ?_⟩
        · simp [bodyPart, hb, hss]
        · simp [dlookup_mergeD, dlookupR, Option.orElse]
  · -- parser, params and body (with description)
    cases hpp : parserToParams args with
    | error e => rw [hpp] at h; simp at h
    | ok pp =>
      rw [hpp] at h
      simp only at h
      rcases hss : serializeSchema models fuel st m with ⟨st2, r⟩
      rw [hss] at h
      cases r with
      | error e => simp at h
      | ok schema =>
        simp only at h
        injection h with h1 h2
        subst h1
        injection h2 with h3
        subst h3
        refine ⟨pp, [("payload", Val.vdict (notNone [("name", .vstr "payload"),
          ("required", .vbool true), ("in", .vstr "body"), ("schema", schema),
          ("description", Val.vstr sdesc)]))], by simp [parserPart, hpa, hpp], ?_,
          fun k => ?_⟩
        · simp [bodyPart, hb, hss]
        · simp [dlookup_mergeD, dlookupR, Option.orElse]

/-- Witness for C5: merging one declared param over one path param. -/
theorem c5_witness :
    ∃ pp bp,
      parserPart (PDoc.mk (some [("q", Val.vdict [("in", Val.vstr "query")])])
        none none) = .ok pp ∧
      (bodyPart [] 1 [] (PDoc.mk (some [("q", Val.vdict [("in", Val.vstr "query")])])
        none none)).2 = .ok bp ∧
      ∀ k, dlookup [("id", Val.vdict (pathParam "id" "integer")),
          ("q", Val.vdict [("in", Val.vstr "query")])] k =
        (dlookupR bp k).orElse (fun _ =>
          (dlookupR ((PDoc.mk (some [("q", Val.vdict [("in", Val.vstr "query")])])
            none none).params.getD []) k).orElse (fun _ =>
            (dlookupR pp k).orElse (fun _ =>
              dlookup [("id", Val.vdict (pathParam "id" "integer"))] k))) := by
  have h : mergeParams [] 1 [] [("id", .vdict (pathParam "id" "integer"))]
      (PDoc.mk (some [("q", .vdict [("in", .vstr "query")])]) none none) =
      ([], .ok [("id", .vdict (pathParam "id" "integer")),
        ("q", .vdict [("in", .vstr "query")])]) := by
    simp [mergeParams, mergeD, dinsert, pathParam]
  exact c5_merge_params_order [] 1 [] _ _ [] _ h

theorem dmem_mergeD_iff {α : Type} (a b : Dict α) (k : String) :
    dmem (mergeD a b) k = true ↔
      (dlookupR b k).isSome = true ∨ dmem a k = true := by
  unfold dmem
  rw [dlookup_mergeD]
  cases dlookupR b k <;> simp [Option.orElse]

theorem dmem_single {α : Type} (k : String) (v : α) : dmem [(k, v)] k = true := by
  simp [dmem, dlookup]

theorem basicParam_in (a : Arg) : dmem (basicParam a) "in" = true := by
  unfold basicParam handleArgType
  repeat' split
  all_goals simp [dmem_dinsert, dmem_mergeD_iff, dmem_single]

theorem dmem_applyChoices (a : Arg) (param : AList)
    (h : dmem param "in" = true) : dmem (applyChoices a param) "in" = true := by
  unfold applyChoices
  split
  · exact h
  · simp [dmem_dinsert, h]

/-- Every parameter `parser_to_params` derives carries an `in` entry: the
loop seeds `{'in': …}` and nothing ever deletes the key. -/
theorem paramForArg_in (a : Arg) (p : AList) (h : paramForArg a = .ok p) :
    dmem p "in" = true := by
  unfold paramForArg at h
  split at h
  · split at h
    · cases h
    · injection h with h'
      subst h'
      apply dmem_applyChoices
      simp [dmem_dinsert, basicParam_in]
  · injection h with h'
    subst h'
    exact dmem_applyChoices a _ (basicParam_in a)

/-- The `in` location an argument contributes to the conflict check (none
when its parameter derivation raises first). -/
def argLocVal (a : Arg) : Option Val :=
  match paramForArg a with
  | .ok p => dlookup p "in"
  | .error _ => none

/-- The locations the non-cookie arguments contribute. -/
def locsOf (args : List Arg) : List Val :=
  (args.filter (fun a => a.location ≠ "cookie")).filterMap argLocVal

/-- Some value of `ls` is the string `s`. -/
def hasLocIn (ls : List Val) (s : String) : Prop :=
  ∃ v ∈ ls, isStr v s = true

theorem hasLocIn_middle (locations tail : List Val) (v : Val) (s : String) :
    hasLocIn (locations ++ v :: tail) s ↔
      hasLocIn ((v :: locations) ++ tail) s := by
  simp only [hasLocIn, List.mem_append, List.mem_cons]
  constructor
  · rintro ⟨w, hw, hs⟩
    exact ⟨w, by tauto, hs⟩
  · rintro ⟨w, hw, hs⟩
    exact ⟨w, by tauto, hs⟩

theorem parserToParamsGo_conflict (args : List Arg) :
    ∀ params locations,
      (∀ a ∈ args, a.location ≠ "cookie" → ∃ p, paramForArg a = .ok p) →
      ((∃ ps, parserToParamsGo args params locations = .ok ps) ↔
        ¬(hasLocIn (locations ++ locsOf args) "body" ∧
          hasLocIn (locations ++ locsOf args) "formData")) ∧
      (parserToParamsGo args params locations =
          .error (.specsError "Can't use formData and body at the same time") ↔
        (hasLocIn (locations ++ locsOf args) "body" ∧
          hasLocIn (locations ++ locsOf args) "formData")) := by
  induction args with
  | nil =>
    intro params locations _
    have hb : (locations.any (isStr · "body")) = true ↔
        hasLocIn locations "body" := by
      simp [hasLocIn, List.any_eq_true]
    have hf : (locations.any (isStr · "formData")) = true ↔
        hasLocIn locations "formData" := by
      simp [hasLocIn, List.any_eq_true]
    simp only [locsOf, List.filter_nil, List.filterMap_nil, List.append_nil,
      parserToParamsGo]
    by_cases hcond : (locations.any (isStr · "body")) = true ∧
        (locations.any (isStr · "formData")) = true
    · rw [if_pos (by simp [hcond.1, hcond.2])]
      constructor
      · constructor
        · rintro ⟨ps, hps⟩; simp at hps
        · intro hn; exact absurd ⟨hb.mp hcond.1, hf.mp hcond.2⟩ hn
      · constructor
        · intro _; exact ⟨hb.mp hcond.1, hf.mp hcond.2⟩
        · intro _; rfl
    · rw [if_neg (by
        intro hcc
        rcases Bool.and_eq_true .. |>.mp hcc with ⟨h1, h2⟩
        exact hcond ⟨h1, h2⟩)]
      constructor
      · constructor
        · rintro _ ⟨hbody, hform⟩
          exact hcond ⟨hb.mpr hbody, hf.mpr hform⟩
        · intro _; exact ⟨params, rfl⟩
      · constructor
        · rintro hps; simp at hps
        · rintro ⟨hbody, hform⟩
          exact absurd ⟨hb.mpr hbody, hf.mpr hform⟩ hcond
  | cons a rest ih =>
    intro params locations hall
    by_cases hc : a.location = "cookie"
    · have hfilter : locsOf (a :: rest) = locsOf rest := by
        simp [locsOf, List.filter_cons, hc]
      have hrest := ih params locations
        (fun a' ha' => hall a' (List.mem_cons_of_mem _ ha'))
      simp only [parserToParamsGo, if_pos hc, hfilter]
      exact hrest
    · obtain ⟨p, hp⟩ := hall a (List.mem_cons_self _ _) hc
      obtain ⟨v, hv⟩ : ∃ v, dlookup p "in" = some v := by
        have := paramForArg_in a p hp
        unfold dmem at this
        cases hl : dlookup p "in" with
        | none => rw [hl] at this; simp at this
        | some v => exact ⟨v, rfl⟩
      have hlocs : locsOf (a :: rest) = v :: locsOf rest := by
        simp [locsOf, List.filter_cons, hc, List.filterMap_cons, argLocVal,
          hp, hv]
      have hrest := ih (dinsert params a.name (.vdict p)) (v :: locations)
        (fun a' ha' => hall a' (List.mem_cons_of_mem _ ha'))
      have hgo : parserToParamsGo (a :: rest) params locations =
          parserToParamsGo rest (dinsert params a.name (.vdict p))
            (v :: locations) := by
        simp [parserToParamsGo, hc, hp, hv]
      rw [hgo, hlocs]
      rw [hasLocIn_middle locations (locsOf rest) v "body",
        hasLocIn_middle locations (locsOf rest) v "formData"]
      exact hrest

/-- Counterexample to C6 as stated: a single query-located argument with
`action='append'` whose declared type contributes a `$ref` schema without a
`type` makes `param['items'] = {'type': param['type']}` raise `KeyError`,
although no conflicting `body`/`formData` locations are derived (indeed no
location at all reaches the conflict check). -/
theorem c6_counterexample :
    parserToParams [Arg.mk "x" "args"
        (.schemaType [("$ref", Val.vstr "#/definitions/M")])
        false none none "append" []] = .error (.keyError "type") ∧
    LOCATIONS "args" = "query" ∧
    locsOf [Arg.mk "x" "args"
        (.schemaType [("$ref", Val.vstr "#/definitions/M")])
        false none none "append" []] = [] :=
  ⟨rfl, rfl, rfl⟩

/-- C6 (amended): provided every non-cookie argument's parameter derivation
itself succeeds (in particular no append-action argument whose schema lacks
a `type`, where a `KeyError` escapes instead), `parser_to_params` raises —
the `SpecsError` about `formData` and `body` — if and only if the derived
parameters include both a body-located and a formData-located parameter;
otherwise it returns the parameter mapping without error. -/
theorem c6_amended_parser_conflict (args : List Arg)
    (h : ∀ a ∈ args, a.location ≠ "cookie" → ∃ p, paramForArg a = .ok p) :
    ((∃ ps, parserToParams args = .ok ps) ↔
      ¬(hasLocIn (locsOf args) "body" ∧ hasLocIn (locsOf args) "formData")) ∧
    (parserToParams args =
        .error (.specsError "Can't use formData and body at the same time") ↔
      (hasLocIn (locsOf args) "body" ∧ hasLocIn (locsOf args) "formData")) := by
  have := parserToParamsGo_conflict args [] [] h
  simpa using this

/-- Witness for C6 (amended): a parser declaring a `form` argument and a
`json` argument fails with the conflict error. -/
theorem c6_witness :
    parserToParams
        [Arg.mk "f" "form" .pyStr false none none "store" [],
         Arg.mk "j" "json" .pyStr false none none "store" []] =
      .error (.specsError "Can't use formData and body at the same time") := by
  have h : ∀ a ∈ [Arg.mk "f" "form" .pyStr false none none "store" [],
      Arg.mk "j" "json" .pyStr false none none "store" []],
      a.location ≠ "cookie" → ∃ p, paramForArg a = .ok p := by
    intro a ha _
    rcases List.mem_cons.mp ha with rfl | ha
    · exact ⟨_, rfl⟩
    · rcases List.mem_cons.mp ha with rfl | ha
      · exact ⟨_, rfl⟩
      · simp at ha
  refine (c6_amended_parser_conflict _ h).2.mpr ⟨?_, ?_⟩
  · exact ⟨.vstr "body", by
      simp [locsOf, argLocVal, List.filterMap_cons, paramForArg, basicParam,
        handleArgType, applyChoices, LOCATIONS, dlookup, dinsert, truthy], rfl⟩
  · exact ⟨.vstr "formData", by
      simp [locsOf, argLocVal, List.filterMap_cons, paramForArg, basicParam,
        handleArgType, applyChoices, LOCATIONS, dlookup, dinsert, truthy], rfl⟩

theorem extractMethodsGo_keys (models : Dict ModelSpec) (fuel : Nat)
    (impl : String → MethodImpl) :
    ∀ ms st doc st' d', extractMethodsGo models fuel impl st doc ms = (st', d', none) →
      ∀ k, dmem d' k = true ↔ dmem doc k = true ∨ k ∈ ms := by
  intro ms
  induction ms with
  | nil =>
    intro st doc st' d' h k
    injection h with h1 h2
    injection h2 with h3 _
    subst h3
    simp
  | cons m rest ih =>
    intro st doc st' d' h k
    simp only [extractMethodsGo] at h
    cases hm : methodMerge (dlookup doc m) (impl m).attr with
    | error e => rw [hm] at h; simp at h
    | ok omd =>
      rw [hm] at h
      cases omd with
      | none =>
        have := ih st (dinsert doc m .fls) st' d' h k
        rw [this, dmem_dinsert]
        have hmk : m = k ↔ k = m := eq_comm
        simp only [List.mem_cons]
        tauto
      | some md =>
        simp only at h
        rcases hmp : mergeParams models fuel st []
          (pdocOf (dinsert md "docstring" (.docstr (impl m).pdoc))) with ⟨st2, r⟩
        rw [hmp] at h
        cases r with
        | error e => simp at h
        | ok mp =>
          simp only at h
          have := ih st2 (dinsert doc m
            (.sub (dinsert (dinsert md "docstring" (.docstr (impl m).pdoc))
              "params" (.val (.vdict mp))))) st' d' h k
          rw [this, dmem_dinsert]
          have hmk : m = k ↔ k = m := eq_comm
          simp only [List.mem_cons]
          tauto

/-- Counterexample to C2 as stated: for a resource whose `__apidoc__` is
the empty dict (and no methods), one `extract_resource_doc` pass returns a
doc that aliases and mutates `__apidoc__`, which afterwards holds the added
`name` and `params` keys — it is NOT left unchanged. -/
theorem c2_counterexample :
    extractResourceDoc [] 1 [] []
        (Resource.mk "Todo" (.dictV []) [] (fun _ => ⟨some [], ⟨none, none, []⟩⟩))
        "/todo" =
      ([], .ok [("name", DV.val (.vstr "Todo")), ("params", DV.val (.vdict []))]) ∧
    apidocAfter [] 1 [] []
        (Resource.mk "Todo" (.dictV []) [] (fun _ => ⟨some [], ⟨none, none, []⟩⟩))
        "/todo" ≠ AttrVal.dictV [] := by
  have h1 : extractResourceDoc [] 1 [] []
      (Resource.mk "Todo" (.dictV []) [] (fun _ => ⟨some [], ⟨none, none, []⟩⟩))
      "/todo" =
      ([], .ok [("name", DV.val (.vstr "Todo")), ("params", DV.val (.vdict []))]) := by
    simp [extractResourceDoc, extractResourceDocFrom, extractPathParams,
      scanParams, extractPathParamsGo, dinsert, mergeParams, pdocOf, dlookup,
      extractMethodsGo, String.toList]
  refine ⟨h1, ?_⟩
  simp [apidocAfter, h1]

/-- C2 (amended): a serialization pass does NOT leave the resource's
`__apidoc__` unchanged — `extract_resource_doc` aliases it and updates it
in place, so after a successful pass it holds exactly its previous keys
plus `name`, `params` and one key per resource method; the merged method
docs themselves are rebuilt fresh by `merge`, and the `Swagger` instance
state retained across calls is the model registry threaded through the
call. -/
theorem c2_amended_apidoc_mutated (models : Dict ModelSpec) (fuel : Nat)
    (converters : List String) (st : RegState) (r : Resource) (url : String)
    (d0 : DDict) (st' : RegState) (doc' : DDict)
    (hapi : r.apidoc = .dictV d0)
    (hok : extractResourceDoc models fuel converters st r url = (st', .ok doc')) :
    apidocAfter models fuel converters st r url = .dictV doc' ∧
    ∀ k, dmem doc' k = true ↔
      dmem d0 k = true ∨ k = "name" ∨ k = "params" ∨ k ∈ r.methods := by
  have hfrom : extractResourceDocFrom models fuel converters st r url d0 =
      (st', .ok doc') := by
    rw [← hok]
    simp [extractResourceDoc, hapi]
  constructor
  · simp [apidocAfter, hapi, extractResourceDoc, hfrom]
  · intro k
    unfold extractResourceDocFrom at hfrom
    simp only [] at hfrom
    cases hpp : extractPathParams converters url with
    | error e => rw [hpp] at hfrom; simp at hfrom
    | ok pathParams =>
      rw [hpp] at hfrom
      simp only at hfrom
      rcases hmp : mergeParams models fuel st pathParams
        (pdocOf (dinsert d0 "name" (.val (.vstr r.rname)))) with ⟨st2, rr⟩
      rw [hmp] at hfrom
      cases rr with
      | error e => simp at hfrom
      | ok ps =>
        simp only at hfrom
        rcases hgo : extractMethodsGo models fuel r.impl st2
          (dinsert (dinsert d0 "name" (.val (.vstr r.rname)))
            "params" (.val (.vdict ps))) r.methods with ⟨st3, d3, oerr⟩
        rw [hgo] at hfrom
        cases oerr with
        | some e => simp at hfrom
        | none =>
          injection hfrom with hst hres
          injection hres with hres
          subst hres
          have := extractMethodsGo_keys models fuel r.impl r.methods st2
            (dinsert (dinsert d0 "name" (.val (.vstr r.rname)))
              "params" (.val (.vdict ps))) st3 d3 hgo k
          rw [this, dmem_dinsert, dmem_dinsert]
          have h1 : ("params" : String) = k ↔ k = "params" := eq_comm
          have h2 : ("name" : String) = k ↔ k = "name" := eq_comm
          tauto

/-- Witness for C2 (amended): the empty-apidoc resource ends with exactly
the keys `name` and `params`. -/
theorem c2_witness :
    apidocAfter [] 1 [] []
        (Resource.mk "Todo" (.dictV []) [] (fun _ => ⟨some [], ⟨none, none, []⟩⟩))
        "/todo" =
      .dictV [("name", DV.val (.vstr "Todo")), ("params", DV.val (.vdict []))] ∧
    ∀ k, dmem [("name", DV.val (.vstr "Todo")), ("params", DV.val (.vdict []))]
        k = true ↔
      dmem ([] : DDict) k = true ∨ k = "name" ∨ k = "params" ∨
        k ∈ ([] : List String) := by
  have h1 : extractResourceDoc [] 1 [] []
      (Resource.mk "Todo" (.dictV []) [] (fun _ => ⟨some [], ⟨none, none, []⟩⟩))
      "/todo" =
      ([], .ok [("name", DV.val (.vstr "Todo")), ("params", DV.val (.vdict []))]) := by
    simp [extractResourceDoc, extractResourceDocFrom, extractPathParams,
      scanParams, extractPathParamsGo, dinsert, mergeParams, pdocOf, dlookup,
      extractMethodsGo, String.toList]
  exact c2_amended_apidoc_mutated [] 1 [] []
    (Resource.mk "Todo" (.dictV []) [] (fun _ => ⟨some [], ⟨none, none, []⟩⟩))
    "/todo" [] [] _ rfl h1

end FlaskRestplus
